import Mathlib

/-!
# Verification of the wincnn Cook–Toom / Winograd transform generator

Shallow embedding of `wincnn.py` over the exact rationals `ℚ`.

* sympy matrices become `Matrix (Fin m) (Fin n) ℚ`;
* the sympy polynomials used in `Lx` (products of linear factors that are
  expanded, after which coefficients are read off) become lists of
  coefficients, little-endian (`pCoeff p k` is the coefficient of `x^k`);
* the formal indexed symbols `d[i]`, `g[i]` of `filterVerify` /
  `convolutionVerify` become universally quantified assignments
  `d g : ℕ → ℚ` (an identity of symbolic expressions over `ℚ` holds
  exactly when it holds for every rational assignment);
* `sympy`'s `f ** (-1)` (matrix inverse, which raises on a singular matrix)
  becomes the adjugate formula `det⁻¹ • adjugate`, which agrees with the
  matrix inverse whenever the matrix is invertible;
* `chebyshevPoints` produces exact symbolic cosines, embedded as `Real.cos`.
-/

namespace Wincnn

/-! ## Definitions: the embedded program and proof-level entry functions -/

/-- Polynomial addition on coefficient lists. -/
def pAdd : List ℚ → List ℚ → List ℚ
  | [], q => q
  | p, [] => p
  | c :: p, e :: q => (c + e) :: pAdd p q

/-- Scalar multiplication of a coefficient list. -/
def pSmul (c : ℚ) (p : List ℚ) : List ℚ := p.map (fun x => c * x)

/-- Polynomial multiplication on coefficient lists. -/
def pMul : List ℚ → List ℚ → List ℚ
  | [], _ => []
  | c :: p, q => pAdd (pSmul c q) (0 :: pMul p q)

/-- Coefficient of `x^k` (0 beyond the list). -/
def pCoeff (p : List ℚ) (k : ℕ) : ℚ := p.getD k 0

/-- Horner evaluation of a coefficient list. -/
def pEval (p : List ℚ) (x : ℚ) : ℚ := p.foldr (fun c acc => c + x * acc) 0

/-- Product of a list of polynomials (the `reduce(operator.mul, …, 1)` of the
source, with unit `1`). -/
def polyProd (fs : List (List ℚ)) : List ℚ := fs.foldr pMul [1]

/-- Predicate: `x` is the cast of an integer. -/
def isInt (x : ℚ) : Prop := ∃ z : ℤ, x = (z : ℚ)

/-- A coefficient list all of whose coefficients are integers. -/
def IsIntPoly (p : List ℚ) : Prop := ∀ k, isInt (pCoeff p k)

/-- Source `At(a, m, n)`: the `m × n` Vandermonde block, entry `(i, j)` is `a[i]^j`. -/
def At (a : ℕ → ℚ) (m n : ℕ) : Matrix (Fin m) (Fin n) ℚ :=
  Matrix.of fun i j => a i ^ (j : ℕ)

/-- Entry function of `A(a, m, n)`: `At(a, m-1, n)` with the row
`[0, …, 0, 1]` appended at index `m-1`. -/
def Af (a : ℕ → ℚ) (m n i j : ℕ) : ℚ :=
  if i < m - 1 then a i ^ j else if j = n - 1 then 1 else 0

/-- Source `A(a, m, n)`. -/
def A (a : ℕ → ℚ) (m n : ℕ) : Matrix (Fin m) (Fin n) ℚ :=
  Matrix.of fun i j => Af a m n i j

/-- Entry function of `T(a, n)`: the `n × (n+1)` matrix `[I_n | −a_i^n]`. -/
def Tf (a : ℕ → ℚ) (n i j : ℕ) : ℚ :=
  if j < n then (if i = j then 1 else 0) else -(a i ^ n)

/-- Source `T(a, n)`. -/
def T (a : ℕ → ℚ) (n : ℕ) : Matrix (Fin n) (Fin (n + 1)) ℚ :=
  Matrix.of fun i j => Tf a n i j

/-- Source `Lx(a, n)[i]`: the expanded coefficients of `∏_{k<n, k≠i} (x − a[k])`
(the factor at `k = i` is the constant `1`, as in the source's `reduce`). -/
def Lx (a : ℕ → ℚ) (n : ℕ) (i : ℕ) : List ℚ :=
  polyProd ((List.range n).map fun k => if k = i then [1] else [-(a k), 1])

/-- Entry function of `F(a, n)`: the Lagrange denominator
`∏_{k<n, k≠i} (a[i] − a[k])`. -/
def Ff (a : ℕ → ℚ) (n i : ℕ) : ℚ :=
  ∏ k in Finset.range n, (if k = i then 1 else a i - a k)

/-- Source `F(a, n)`, an `n × 1` column. -/
def F (a : ℕ → ℚ) (n : ℕ) : Matrix (Fin n) (Fin 1) ℚ :=
  Matrix.of fun i _ => Ff a n i

/-- Entry function of `L(a, n)` (the transpose is already folded in, as in
the source's trailing `.T`): entry `(i, j)` is the coefficient of `x^i` in
the `j`-th Lagrange numerator, divided by the `j`-th denominator. -/
def Lf (a : ℕ → ℚ) (n i j : ℕ) : ℚ := pCoeff (Lx a n j) i / Ff a n j

/-- Source `L(a, n)`. -/
def L (a : ℕ → ℚ) (n : ℕ) : Matrix (Fin n) (Fin n) ℚ :=
  (Matrix.of fun i j : Fin n => pCoeff (Lx a n i) j / Ff a n i).transpose

/-- Source `Fdiag(a, n)`. -/
def Fdiag (a : ℕ → ℚ) (n : ℕ) : Matrix (Fin n) (Fin n) ℚ :=
  Matrix.of fun i j => if (i : ℕ) = (j : ℕ) then Ff a n i else 0

/-- Source `FdiagPlus1(a, n)`: `Fdiag(a, n−1)` padded by a zero column and the row
`[0, …, 0, 1]` (the point at infinity). -/
def FdiagPlus1 (a : ℕ → ℚ) (n : ℕ) : Matrix (Fin n) (Fin n) ℚ :=
  Matrix.of fun i j =>
    if (i : ℕ) < n - 1 then
      (if (j : ℕ) < n - 1 then (if (i : ℕ) = (j : ℕ) then Ff a (n - 1) i else 0) else 0)
    else if (j : ℕ) = n - 1 then 1 else 0

/-- Source `Bt(a, n) = L(a, n) * T(a, n)`. -/
def Bt (a : ℕ → ℚ) (n : ℕ) : Matrix (Fin n) (Fin (n + 1)) ℚ := L a n * T a n

/-- Entry function of `Bt`. -/
def Btf (a : ℕ → ℚ) (n i j : ℕ) : ℚ :=
  ∑ u in Finset.range n, Lf a n i u * Tf a n u j

/-- Entry function of `B(a, n)`: `Bt(a, n−1)` with the row `[0, …, 0, 1]`
appended at index `n−1`. -/
def Bf (a : ℕ → ℚ) (n i j : ℕ) : ℚ :=
  if i < n - 1 then Btf a (n - 1) i j else if j = n - 1 then 1 else 0

/-- Source `B(a, n)`. -/
def B (a : ℕ → ℚ) (n : ℕ) : Matrix (Fin n) (Fin n) ℚ :=
  Matrix.of fun i j => Bf a n i j

/-- Embedding of sympy's `f ** (-1)` (matrix inverse).  For an invertible
matrix this adjugate formula is the unique inverse, which is what sympy
returns; sympy raises on a singular matrix (see the error model below). -/
def matInv {k : ℕ} (M : Matrix (Fin k) (Fin k) ℚ) : Matrix (Fin k) (Fin k) ℚ :=
  M.det⁻¹ • M.adjugate

def FractionsInG : ℕ := 0

def FractionsInA : ℕ := 1

def FractionsInB : ℕ := 2

def FractionsInF : ℕ := 3

/-- The scale matrix of `cookToomFilter`: `f = FdiagPlus1(a, α)`, with the
first row negated when `f[0, 0] < 0`. -/
def fScale (a : ℕ → ℚ) (al : ℕ) : Matrix (Fin al) (Fin al) ℚ :=
  if h : 0 < al then
    if FdiagPlus1 a al ⟨0, h⟩ ⟨0, h⟩ < 0 then
      (FdiagPlus1 a al).updateRow ⟨0, h⟩ (fun j => -(FdiagPlus1 a al ⟨0, h⟩ j))
    else FdiagPlus1 a al
  else FdiagPlus1 a al

/-- Source `cookToomFilter(a, n, r, fractionsIn)` (the exact-symbolic path,
`precision=None`): returns `(AT, G, BT, f)` for `F(n, r)` with `α = n+r−1`. -/
def cookToomFilter (a : ℕ → ℚ) (n r : ℕ) (fractionsIn : ℕ) :
    Matrix (Fin n) (Fin (n + r - 1)) ℚ × Matrix (Fin (n + r - 1)) (Fin r) ℚ ×
      Matrix (Fin (n + r - 1)) (Fin (n + r - 1)) ℚ ×
      Matrix (Fin (n + r - 1)) (Fin (n + r - 1)) ℚ :=
  if fractionsIn = FractionsInG then
    ((A a (n + r - 1) n).transpose,
     ((A a (n + r - 1) r).transpose * matInv (fScale a (n + r - 1))).transpose,
     fScale a (n + r - 1) * (B a (n + r - 1)).transpose,
     fScale a (n + r - 1))
  else if fractionsIn = FractionsInA then
    ((A a (n + r - 1) n).transpose * matInv (fScale a (n + r - 1)),
     A a (n + r - 1) r,
     fScale a (n + r - 1) * (B a (n + r - 1)).transpose,
     fScale a (n + r - 1))
  else if fractionsIn = FractionsInB then
    ((A a (n + r - 1) n).transpose,
     A a (n + r - 1) r,
     (B a (n + r - 1)).transpose,
     fScale a (n + r - 1))
  else
    ((A a (n + r - 1) n).transpose,
     A a (n + r - 1) r,
     fScale a (n + r - 1) * (B a (n + r - 1)).transpose,
     fScale a (n + r - 1))

/-- Source `filterVerify(n, r, AT, G, BT)` at the assignment `d`, `g`:
`AT * ((G*g) ∘ (BT*d))` with `∘` the elementwise product. -/
def filterVerify (n r : ℕ) (AT : Matrix (Fin n) (Fin (n + r - 1)) ℚ)
    (G : Matrix (Fin (n + r - 1)) (Fin r) ℚ)
    (BT : Matrix (Fin (n + r - 1)) (Fin (n + r - 1)) ℚ)
    (d g : ℕ → ℚ) : Matrix (Fin n) (Fin 1) ℚ :=
  let dv : Matrix (Fin (n + r - 1)) (Fin 1) ℚ := Matrix.of fun i _ => d i
  let gv : Matrix (Fin r) (Fin 1) ℚ := Matrix.of fun i _ => g i
  let V := BT * dv
  let U := G * gv
  let M := Matrix.of fun i j => U i j * V i j
  AT * M

/-- Source `convolutionVerify(n, r, B, G, A)` at the assignment `d`, `g`:
`B * ((G*g) ∘ (A*d))` with `∘` the elementwise product. -/
def convolutionVerify (n r : ℕ) (Bc : Matrix (Fin (n + r - 1)) (Fin (n + r - 1)) ℚ)
    (G : Matrix (Fin (n + r - 1)) (Fin r) ℚ)
    (Ac : Matrix (Fin (n + r - 1)) (Fin n) ℚ)
    (d g : ℕ → ℚ) : Matrix (Fin (n + r - 1)) (Fin 1) ℚ :=
  let dv : Matrix (Fin n) (Fin 1) ℚ := Matrix.of fun i _ => d i
  let gv : Matrix (Fin r) (Fin 1) ℚ := Matrix.of fun i _ => g i
  let V := Ac * dv
  let U := G * gv
  let M := Matrix.of fun i j => U i j * V i j
  Bc * M

/-- Source `chebyshevPoints(n)` (exact-symbolic path, `precision=None`):
the points `cos((2k+1)/(2n) · π)`, `k = 0, …, n−1`. -/
noncomputable def chebyshevPoints (n : ℕ) : List ℝ :=
  (List.range n).map fun k : ℕ => Real.cos ((2 * (k : ℝ) + 1) / (2 * (n : ℝ)) * Real.pi)

/-- Row `i`, column `t` of `Aᵗ · diag(A_r·g) · Bᵗ`: the coefficient of `d t`
in entry `i` of `filterVerify` once the diagonal scale factors cancel. -/
def kern (a : ℕ → ℚ) (n r : ℕ) (g : ℕ → ℚ) (i t : ℕ) : ℚ :=
  ∑ s in Finset.range (n + r - 1),
    Af a (n + r - 1) n s i * (∑ j in Finset.range r, Af a (n + r - 1) r s j * g j) *
      Bf a (n + r - 1) t s

/-- Diagonal entry function of `FdiagPlus1(a, al)`. -/
def fdiagEntry (a : ℕ → ℚ) (al s : ℕ) : ℚ :=
  if s < al - 1 then Ff a (al - 1) s else 1

/-- Diagonal entry function of `fScale` (after the sign normalization). -/
def fEntry (a : ℕ → ℚ) (al s : ℕ) : ℚ :=
  if fdiagEntry a al 0 < 0 ∧ s = 0 then -(fdiagEntry a al s) else fdiagEntry a al s

/-- The interpolation points `(0, 1, -1)` of the `F(2,3)` test fixture. -/
def exPts : ℕ → ℚ := fun k => ([0, 1, -1] : List ℚ).getD k 0

/-- A concrete data assignment. -/
def dEx : ℕ → ℚ := fun t => (t : ℚ)

/-- A concrete filter assignment. -/
def gEx : ℕ → ℚ := fun t => (t : ℚ) + 1

/-- The indicator assignment `e₁`. -/
def dInd : ℕ → ℚ := fun t => if t = 1 then 1 else 0

/-- The indicator assignment `e₀`. -/
def gInd : ℕ → ℚ := fun t => if t = 0 then 1 else 0

/-- The full node polynomial `∏_{k<m} (x − a k)`, used to express the
point-at-infinity column of `Bt`. -/
def Mx (a : ℕ → ℚ) (m : ℕ) : List ℚ :=
  polyProd ((List.range m).map fun k => [-(a k), 1])

inductive CTError where
  | indexOutOfRange : CTError
  | nonInvertibleMatrix : CTError
deriving DecidableEq

def cookToomFilterE (aL : List ℚ) (n r : ℕ) (fractionsIn : ℕ) :
    Except CTError
      (Matrix (Fin n) (Fin (n + r - 1)) ℚ × Matrix (Fin (n + r - 1)) (Fin r) ℚ ×
        Matrix (Fin (n + r - 1)) (Fin (n + r - 1)) ℚ ×
        Matrix (Fin (n + r - 1)) (Fin (n + r - 1)) ℚ) :=
  if n + r - 2 ≤ aL.length then
    if (fractionsIn = FractionsInG ∨ fractionsIn = FractionsInA)
        ∧ (fScale (fun i => aL.getD i 0) (n + r - 1)).det = 0 then
      Except.error CTError.nonInvertibleMatrix
    else
      Except.ok (cookToomFilter (fun i => aL.getD i 0) n r fractionsIn)
  else Except.error CTError.indexOutOfRange

/-! ## Lemmas and claim theorems -/

@[simp] lemma pEval_nil (x : ℚ) : pEval [] x = 0 := rfl

@[simp] lemma pEval_cons (c : ℚ) (p : List ℚ) (x : ℚ) :
    pEval (c :: p) x = c + x * pEval p x := rfl

@[simp] lemma pCoeff_nil (k : ℕ) : pCoeff [] k = 0 := rfl

@[simp] lemma pCoeff_cons_zero (c : ℚ) (p : List ℚ) : pCoeff (c :: p) 0 = c := rfl

@[simp] lemma pCoeff_cons_succ (c : ℚ) (p : List ℚ) (k : ℕ) :
    pCoeff (c :: p) (k + 1) = pCoeff p k := rfl

lemma pCoeff_eq_zero_of_le {p : List ℚ} {k : ℕ} (h : p.length ≤ k) :
    pCoeff p k = 0 := by
  unfold pCoeff
  exact List.getD_eq_default _ _ h

lemma pEval_pAdd (p q : List ℚ) (x : ℚ) :
    pEval (pAdd p q) x = pEval p x + pEval q x := by
  induction p generalizing q with
  | nil => simp [pAdd]
  | cons c p ih =>
    cases q with
    | nil => simp [pAdd]
    | cons e q =>
      show (c + e) + x * pEval (pAdd p q) x = (c + x * pEval p x) + (e + x * pEval q x)
      rw [ih]; ring

lemma pEval_pSmul (c : ℚ) (p : List ℚ) (x : ℚ) :
    pEval (pSmul c p) x = c * pEval p x := by
  induction p with
  | nil => simp [pSmul]
  | cons e p ih =>
    show (c * e) + x * pEval (pSmul c p) x = c * (e + x * pEval p x)
    rw [ih]; ring

lemma pEval_pMul (p q : List ℚ) (x : ℚ) :
    pEval (pMul p q) x = pEval p x * pEval q x := by
  induction p with
  | nil => simp [pMul]
  | cons c p ih =>
    simp [pMul, pEval_pAdd, pEval_pSmul, ih]
    ring

lemma pAdd_length (p q : List ℚ) :
    (pAdd p q).length = max p.length q.length := by
  induction p generalizing q with
  | nil => simp [pAdd]
  | cons c p ih =>
    cases q with
    | nil => simp [pAdd]
    | cons e q => simp [pAdd, ih]; omega

lemma pSmul_length (c : ℚ) (p : List ℚ) : (pSmul c p).length = p.length := by
  simp [pSmul]

lemma pMul_length_le (p q : List ℚ) (hp : p ≠ []) (hq : q ≠ []) :
    (pMul p q).length ≤ p.length + q.length - 1 := by
  induction p with
  | nil => simp at hp
  | cons c p ih =>
    cases p with
    | nil =>
      cases q with
      | nil => exact absurd rfl hq
      | cons e q =>
        have hrw : pMul [c] (e :: q) = pAdd (pSmul c (e :: q)) [0] := rfl
        rw [hrw, pAdd_length, pSmul_length]
        simp only [List.length_cons, List.length_singleton]
        omega
    | cons c' p' =>
      have h := ih (by simp)
      have hq1 : 1 ≤ q.length := List.length_pos.mpr hq
      have hrw : pMul (c :: c' :: p') q = pAdd (pSmul c q) (0 :: pMul (c' :: p') q) := rfl
      rw [hrw, pAdd_length, pSmul_length]
      simp only [List.length_cons] at h ⊢
      omega

lemma pEval_eq_sum (p : List ℚ) (x : ℚ) :
    pEval p x = ∑ k in Finset.range p.length, pCoeff p k * x ^ k := by
  induction p with
  | nil => simp
  | cons c p ih =>
    rw [pEval_cons, ih, List.length_cons, Finset.sum_range_succ']
    simp only [pCoeff_cons_succ, pCoeff_cons_zero, pow_zero, mul_one]
    rw [Finset.mul_sum, add_comm]
    congr 1
    refine Finset.sum_congr rfl fun k _ => ?_
    ring

lemma pEval_eq_sum_of_le (p : List ℚ) (x : ℚ) {N : ℕ} (h : p.length ≤ N) :
    pEval p x = ∑ k in Finset.range N, pCoeff p k * x ^ k := by
  rw [pEval_eq_sum]
  refine Finset.sum_subset (Finset.range_subset.mpr h) fun k _ hk => ?_
  rw [pCoeff_eq_zero_of_le (by simpa using hk), zero_mul]

lemma pCoeff_pAdd (p q : List ℚ) (k : ℕ) :
    pCoeff (pAdd p q) k = pCoeff p k + pCoeff q k := by
  induction p generalizing q k with
  | nil => simp [pAdd]
  | cons c p ih =>
    cases q with
    | nil => simp [pAdd]
    | cons e q =>
      cases k with
      | zero => simp [pAdd]
      | succ k => simp [pAdd, ih]

lemma pCoeff_pSmul (c : ℚ) (p : List ℚ) (k : ℕ) :
    pCoeff (pSmul c p) k = c * pCoeff p k := by
  induction p generalizing k with
  | nil => simp [pSmul]
  | cons e p ih =>
    cases k with
    | zero => simp [pSmul]
    | succ k => simpa [pSmul] using ih k

lemma pCoeff_pMul (p q : List ℚ) (k : ℕ) :
    pCoeff (pMul p q) k = ∑ i in Finset.range (k + 1), pCoeff p i * pCoeff q (k - i) := by
  induction p generalizing k with
  | nil => simp [pMul]
  | cons c p ih =>
    have hrw : pMul (c :: p) q = pAdd (pSmul c q) (0 :: pMul p q) := rfl
    rw [hrw, pCoeff_pAdd, pCoeff_pSmul, Finset.sum_range_succ']
    simp only [pCoeff_cons_succ, pCoeff_cons_zero, Nat.sub_zero]
    cases k with
    | zero => simp
    | succ k =>
      rw [pCoeff_cons_succ, ih, add_comm]
      congr 1
      refine Finset.sum_congr rfl fun i _ => ?_
      have harg : k + 1 - (i + 1) = k - i := by omega
      rw [harg]

@[simp] lemma polyProd_nil : polyProd [] = [1] := rfl

@[simp] lemma polyProd_cons (f : List ℚ) (fs : List (List ℚ)) :
    polyProd (f :: fs) = pMul f (polyProd fs) := rfl

lemma pEval_polyProd (fs : List (List ℚ)) (x : ℚ) :
    pEval (polyProd fs) x = (fs.map (fun f => pEval f x)).prod := by
  induction fs with
  | nil => simp [pEval]
  | cons f fs ih => simp [pEval_pMul, ih]

lemma polyProd_ne_nil (fs : List (List ℚ)) (h : ∀ f ∈ fs, f ≠ []) :
    polyProd fs ≠ [] := by
  induction fs with
  | nil => simp
  | cons f fs ih =>
    have hf := h f (by simp)
    have hfs := ih fun g hg => h g (by simp [hg])
    rw [polyProd_cons]
    cases f with
    | nil => exact absurd rfl hf
    | cons c f =>
      have hrw : pMul (c :: f) (polyProd fs) =
          pAdd (pSmul c (polyProd fs)) (0 :: pMul f (polyProd fs)) := rfl
      rw [hrw]
      intro hcon
      have := congrArg List.length hcon
      rw [pAdd_length, pSmul_length] at this
      simp at this

lemma isInt_zero : isInt 0 := ⟨0, by norm_num⟩

lemma isInt_one : isInt 1 := ⟨1, by norm_num⟩

lemma isInt_add {x y : ℚ} (hx : isInt x) (hy : isInt y) : isInt (x + y) := by
  obtain ⟨zx, rfl⟩ := hx; obtain ⟨zy, rfl⟩ := hy
  exact ⟨zx + zy, by push_cast; ring⟩

lemma isInt_neg {x : ℚ} (hx : isInt x) : isInt (-x) := by
  obtain ⟨zx, rfl⟩ := hx
  exact ⟨-zx, by push_cast; ring⟩

lemma isInt_mul {x y : ℚ} (hx : isInt x) (hy : isInt y) : isInt (x * y) := by
  obtain ⟨zx, rfl⟩ := hx; obtain ⟨zy, rfl⟩ := hy
  exact ⟨zx * zy, by push_cast; ring⟩

lemma isInt_pow {x : ℚ} (hx : isInt x) (k : ℕ) : isInt (x ^ k) := by
  obtain ⟨zx, rfl⟩ := hx
  exact ⟨zx ^ k, by push_cast; ring⟩

lemma isInt_sum {ι : Type} {s : Finset ι} {f : ι → ℚ} (h : ∀ i ∈ s, isInt (f i)) :
    isInt (∑ i in s, f i) :=
  Finset.sum_induction f isInt (fun _ _ ha hb => isInt_add ha hb) isInt_zero h

lemma IsIntPoly_pMul {p q : List ℚ} (hp : IsIntPoly p) (hq : IsIntPoly q) :
    IsIntPoly (pMul p q) := by
  intro k
  rw [pCoeff_pMul]
  exact isInt_sum fun i _ => isInt_mul (hp i) (hq (k - i))

lemma IsIntPoly_polyProd {fs : List (List ℚ)} (h : ∀ f ∈ fs, IsIntPoly f) :
    IsIntPoly (polyProd fs) := by
  induction fs with
  | nil =>
    intro k
    cases k with
    | zero => exact isInt_one
    | succ k => exact isInt_zero
  | cons f fs ih =>
    rw [polyProd_cons]
    exact IsIntPoly_pMul (h f (by simp)) (ih fun g hg => h g (by simp [hg]))

/-- Top coefficient of a product, given length (degree) bounds. -/
lemma pCoeff_pMul_top {p q : List ℚ} {dp dq : ℕ}
    (hp : p.length ≤ dp + 1) (hq : q.length ≤ dq + 1) :
    pCoeff (pMul p q) (dp + dq) = pCoeff p dp * pCoeff q dq := by
  rw [pCoeff_pMul]
  have harg : dp + dq - dp = dq := by omega
  rw [Finset.sum_eq_single_of_mem (f := fun i => pCoeff p i * pCoeff q (dp + dq - i)) dp
    (Finset.mem_range.mpr (by omega)) ?_, harg]
  intro b _ hb
  show pCoeff p b * pCoeff q (dp + dq - b) = 0
  rcases Nat.lt_or_ge b dp with hlt | hge
  · have : dq + 1 ≤ dp + dq - b := by omega
    rw [pCoeff_eq_zero_of_le (le_trans hq this), mul_zero]
  · have : dp + 1 ≤ b := by omega
    rw [pCoeff_eq_zero_of_le (le_trans hp this), zero_mul]

lemma matInv_eq_inv {k : ℕ} (M : Matrix (Fin k) (Fin k) ℚ) : matInv M = M⁻¹ := by
  rw [Matrix.inv_def, Ring.inverse_eq_inv, matInv]

@[simp] lemma At_apply (a : ℕ → ℚ) (m n : ℕ) (i : Fin m) (j : Fin n) :
    At a m n i j = a i ^ (j : ℕ) := rfl

@[simp] lemma A_apply (a : ℕ → ℚ) (m n : ℕ) (i : Fin m) (j : Fin n) :
    A a m n i j = Af a m n i j := rfl

@[simp] lemma T_apply (a : ℕ → ℚ) (n : ℕ) (i : Fin n) (j : Fin (n + 1)) :
    T a n i j = Tf a n i j := rfl

@[simp] lemma F_apply (a : ℕ → ℚ) (n : ℕ) (i : Fin n) (j : Fin 1) :
    F a n i j = Ff a n i := rfl

@[simp] lemma L_apply (a : ℕ → ℚ) (n : ℕ) (i j : Fin n) :
    L a n i j = Lf a n i j := rfl

@[simp] lemma B_apply (a : ℕ → ℚ) (n : ℕ) (i j : Fin n) :
    B a n i j = Bf a n i j := rfl

lemma Bt_apply (a : ℕ → ℚ) (n : ℕ) (i : Fin n) (j : Fin (n + 1)) :
    Bt a n i j = Btf a n i j := by
  rw [Bt, Matrix.mul_apply, Btf]
  exact Fin.sum_univ_eq_sum_range (fun u => Lf a n i u * Tf a n u j) n

lemma list_range_map_sum (φ : ℕ → ℕ) (n : ℕ) :
    ((List.range n).map φ).sum = ∑ k in Finset.range n, φ k := by
  induction n with
  | zero => simp
  | succ n ih => rw [List.range_succ, Finset.sum_range_succ]; simp [ih]

lemma list_range_map_prod (φ : ℕ → ℚ) (n : ℕ) :
    ((List.range n).map φ).prod = ∏ k in Finset.range n, φ k := by
  induction n with
  | zero => simp
  | succ n ih => rw [List.range_succ, Finset.prod_range_succ]; simp [ih]

lemma polyProd_length_le (fs : List (List ℚ)) (h : ∀ f ∈ fs, f ≠ []) :
    (polyProd fs).length ≤ (fs.map (fun f => f.length - 1)).sum + 1 := by
  induction fs with
  | nil => simp
  | cons f fs ih =>
    have hf : f ≠ [] := h f (by simp)
    have hih := ih fun g hg => h g (by simp [hg])
    have hne := polyProd_ne_nil fs fun g hg => h g (by simp [hg])
    have hlen := pMul_length_le f (polyProd fs) hf hne
    have h1 : 1 ≤ f.length := List.length_pos.mpr hf
    have h2 : 1 ≤ (polyProd fs).length := List.length_pos.mpr hne
    rw [polyProd_cons]
    simp only [List.map_cons, List.sum_cons]
    omega

lemma Lx_length_le (a : ℕ → ℚ) (n i : ℕ) (hi : i < n) : (Lx a n i).length ≤ n := by
  have h := polyProd_length_le ((List.range n).map fun k => if k = i then [1] else [-(a k), 1])
    (by
      intro f hf
      simp only [List.mem_map] at hf
      obtain ⟨k, _, rfl⟩ := hf
      by_cases hk : k = i <;> simp [hk])
  rw [List.map_map] at h
  have hcomp : ((fun f : List ℚ => f.length - 1) ∘ fun k => if k = i then [1] else [-(a k), 1])
      = fun k => if k = i then 0 else 1 := by
    funext k
    by_cases hk : k = i <;> simp [hk]
  rw [hcomp, list_range_map_sum] at h
  have hsplit : (∑ k in Finset.range n, (if k = i then (0 : ℕ) else 1))
      + ∑ k in Finset.range n, (if k = i then (1 : ℕ) else 0) = n := by
    rw [← Finset.sum_add_distrib]
    have : ∀ k, (if k = i then (0 : ℕ) else 1) + (if k = i then (1 : ℕ) else 0) = 1 := by
      intro k; by_cases hk : k = i <;> simp [hk]
    simp only [this, Finset.sum_const, Finset.card_range, smul_eq_mul, mul_one]
  have hone : ∑ k in Finset.range n, (if k = i then (1 : ℕ) else 0) = 1 := by
    rw [Finset.sum_ite_eq' (Finset.range n) i fun _ => (1 : ℕ)]
    simp [hi]
  unfold Lx
  omega

lemma pEval_Lx (a : ℕ → ℚ) (n i : ℕ) (x : ℚ) :
    pEval (Lx a n i) x = ∏ k in Finset.range n, (if k = i then 1 else x - a k) := by
  rw [Lx, pEval_polyProd, List.map_map]
  have hcomp : ((fun f => pEval f x) ∘ fun k => if k = i then [1] else [-(a k), 1])
      = fun k => if k = i then (1 : ℚ) else x - a k := by
    funext k
    by_cases hk : k = i
    · simp [hk, pEval]
    · simp only [Function.comp_apply, hk, if_false]
      show -(a k) + x * (1 + x * 0) = x - a k
      ring
  rw [hcomp, list_range_map_prod]

lemma pEval_Lx_self (a : ℕ → ℚ) (n i : ℕ) : pEval (Lx a n i) (a i) = Ff a n i := by
  rw [pEval_Lx, Ff]

lemma pEval_Lx_other (a : ℕ → ℚ) (n i t : ℕ) (ht : t < n) (hne : t ≠ i) :
    pEval (Lx a n i) (a t) = 0 := by
  rw [pEval_Lx]
  refine Finset.prod_eq_zero (Finset.mem_range.mpr ht) ?_
  simp [hne]

lemma Ff_ne_zero (a : ℕ → ℚ) (n : ℕ)
    (hdist : ∀ i j, i < n → j < n → a i = a j → i = j) (i : ℕ) (hi : i < n) :
    Ff a n i ≠ 0 := by
  rw [Ff]
  refine Finset.prod_ne_zero_iff.mpr fun k hk => ?_
  by_cases hki : k = i
  · simp [hki]
  · simp only [hki, if_false]
    refine sub_ne_zero.mpr fun hcon => ?_
    exact hki (hdist i k hi (Finset.mem_range.mp hk) hcon).symm

lemma VL_one (a : ℕ → ℚ) (m : ℕ)
    (hdist : ∀ i j, i < m → j < m → a i = a j → i = j) :
    At a m m * L a m = 1 := by
  ext i j
  rw [Matrix.mul_apply]
  have hsum : (∑ k : Fin m, At a m m i k * L a m k j)
      = ∑ k in Finset.range m, a ↑i ^ k * Lf a m k ↑j :=
    Fin.sum_univ_eq_sum_range (fun k => a ↑i ^ k * Lf a m k ↑j) m
  have key : ∑ k in Finset.range m, a ↑i ^ k * Lf a m k ↑j
      = pEval (Lx a m ↑j) (a ↑i) / Ff a m ↑j := by
    rw [pEval_eq_sum_of_le (Lx a m ↑j) (a ↑i) (Lx_length_le a m ↑j j.isLt),
      Finset.sum_div]
    refine Finset.sum_congr rfl fun k _ => ?_
    rw [Lf]
    ring
  rw [hsum, key]
  by_cases hij : i = j
  · subst hij
    rw [pEval_Lx_self, div_self (Ff_ne_zero a m hdist ↑i i.isLt), Matrix.one_apply_eq]
  · rw [pEval_Lx_other a m ↑j ↑i i.isLt (fun hc => hij (Fin.val_injective hc)), zero_div,
      Matrix.one_apply_ne hij]

lemma LV_one (a : ℕ → ℚ) (m : ℕ)
    (hdist : ∀ i j, i < m → j < m → a i = a j → i = j) :
    L a m * At a m m = 1 :=
  Matrix.mul_eq_one_comm.mp (VL_one a m hdist)

lemma LV_entry (a : ℕ → ℚ) (m : ℕ)
    (hdist : ∀ i j, i < m → j < m → a i = a j → i = j)
    (t u : ℕ) (ht : t < m) (hu : u < m) :
    ∑ s in Finset.range m, Lf a m t s * a s ^ u = if t = u then 1 else 0 := by
  have h := congrFun (congrFun (LV_one a m hdist) ⟨t, ht⟩) ⟨u, hu⟩
  rw [Matrix.mul_apply] at h
  have hsum : (∑ s : Fin m, L a m ⟨t, ht⟩ s * At a m m s ⟨u, hu⟩)
      = ∑ s in Finset.range m, Lf a m t s * a s ^ u :=
    Fin.sum_univ_eq_sum_range (fun s => Lf a m t s * a s ^ u) m
  rw [hsum] at h
  rw [h, Matrix.one_apply]
  simp [Fin.mk.injEq]

/-- Uniqueness of interpolation: if the polynomial with coefficients `c`
(of degree `< m`) takes value `w s` at each point `a s`, then applying the
row-normalized Lagrange matrix `L` to the values `w` recovers `c`. -/
lemma interp_unique (a : ℕ → ℚ) (m : ℕ)
    (hdist : ∀ i j, i < m → j < m → a i = a j → i = j) (c w : ℕ → ℚ)
    (hc : ∀ s, s < m → ∑ t in Finset.range m, a s ^ t * c t = w s)
    (t : ℕ) (ht : t < m) :
    ∑ s in Finset.range m, Lf a m t s * w s = c t := by
  have h1 : ∑ s in Finset.range m, Lf a m t s * w s
      = ∑ s in Finset.range m, ∑ u in Finset.range m, Lf a m t s * (a s ^ u * c u) := by
    refine Finset.sum_congr rfl fun s hs => ?_
    rw [← hc s (Finset.mem_range.mp hs), Finset.mul_sum]
  rw [h1, Finset.sum_comm]
  have h2 : ∀ u ∈ Finset.range m, ∑ s in Finset.range m, Lf a m t s * (a s ^ u * c u)
      = (if t = u then 1 else 0) * c u := by
    intro u hu
    rw [← LV_entry a m hdist t u ht (Finset.mem_range.mp hu), Finset.sum_mul]
    refine Finset.sum_congr rfl fun s _ => ?_
    ring
  rw [Finset.sum_congr rfl h2]
  have h3 : ∀ u ∈ Finset.range m, (if t = u then (1 : ℚ) else 0) * c u
      = if t = u then c u else 0 := by
    intro u _
    by_cases h : t = u
    · simp [h]
    · simp [h]
  rw [Finset.sum_congr rfl h3, Finset.sum_ite_eq]
  simp [ht]

lemma Btf_eq_Lf (a : ℕ → ℚ) (m t s : ℕ) (hs : s < m) :
    Btf a m t s = Lf a m t s := by
  rw [Btf]
  have h1 : ∀ u ∈ Finset.range m, Lf a m t u * Tf a m u s
      = if u = s then Lf a m t u else 0 := by
    intro u _
    rw [Tf, if_pos hs]
    by_cases hu : u = s
    · simp [hu]
    · simp [hu]
  rw [Finset.sum_congr rfl h1, Finset.sum_ite_eq' (Finset.range m) s fun u => Lf a m t u]
  simp [hs]

lemma Btf_last (a : ℕ → ℚ) (m t : ℕ) :
    Btf a m t m = ∑ u in Finset.range m, Lf a m t u * (-(a u ^ m)) := by
  rw [Btf]
  refine Finset.sum_congr rfl fun u _ => ?_
  rw [Tf, if_neg (by omega)]

/-- Evaluation at `a s` of the polynomial whose coefficient vector is the
band `t ↦ g(t−i)` (the row `i` of the convolution kernel), truncated to
degree `< n+r−2`. -/
lemma vdm_kstar (a : ℕ → ℚ) (n r : ℕ) (hn : 1 ≤ n) (hr : 1 ≤ r)
    (g : ℕ → ℚ) (i : ℕ) (hi : i < n) (s : ℕ) :
    ∑ t in Finset.range (n + r - 2), a s ^ t * (if i ≤ t ∧ t < i + r then g (t - i) else 0)
      = a s ^ i * (∑ j in Finset.range r, a s ^ j * g j)
        - (if i = n - 1 then 1 else 0) * g (r - 1) * a s ^ (n + r - 2) := by
  have h1 : ∀ t ∈ Finset.range (n + r - 2),
      a s ^ t * (if i ≤ t ∧ t < i + r then g (t - i) else 0)
        = if i ≤ t ∧ t < i + r then a s ^ t * g (t - i) else 0 := by
    intro t _
    by_cases hc : i ≤ t ∧ t < i + r
    · simp [hc]
    · simp [hc]
  rw [Finset.sum_congr rfl h1, ← Finset.sum_filter]
  have hfilter : (Finset.range (n + r - 2)).filter (fun t => i ≤ t ∧ t < i + r)
      = Finset.Ico i (min (i + r) (n + r - 2)) := by
    ext t
    simp only [Finset.mem_filter, Finset.mem_range, Finset.mem_Ico, lt_min_iff]
    omega
  rw [hfilter, Finset.sum_Ico_eq_sum_range]
  have h2 : ∀ k ∈ Finset.range (min (i + r) (n + r - 2) - i),
      a s ^ (i + k) * g (i + k - i) = a s ^ i * (a s ^ k * g k) := by
    intro k _
    rw [pow_add]
    have harg : i + k - i = k := by omega
    rw [harg, mul_assoc]
  rw [Finset.sum_congr rfl h2, ← Finset.mul_sum]
  by_cases hi1 : i = n - 1
  · have hM : min (i + r) (n + r - 2) - i = r - 1 := by omega
    rw [hM, if_pos hi1, one_mul]
    have hr' : r = (r - 1) + 1 := by omega
    have hsplit : (∑ j in Finset.range r, a s ^ j * g j)
        = (∑ j in Finset.range (r - 1), a s ^ j * g j) + a s ^ (r - 1) * g (r - 1) := by
      conv_lhs => rw [hr']
      rw [Finset.sum_range_succ]
    rw [hsplit]
    have hpow : a s ^ i * a s ^ (r - 1) = a s ^ (n + r - 2) := by
      rw [← pow_add]
      congr 1
      omega
    linear_combination (-(g (r - 1))) * hpow
  · have hM : min (i + r) (n + r - 2) - i = r := by omega
    rw [hM, if_neg hi1, zero_mul, zero_mul, sub_zero]

/-- The Cook–Toom kernel is the convolution band matrix `g (t - i)`. -/
lemma kern_eq (a : ℕ → ℚ) (n r : ℕ) (hn : 1 ≤ n) (hr : 1 ≤ r)
    (hdist : ∀ i j, i < n + r - 2 → j < n + r - 2 → a i = a j → i = j)
    (g : ℕ → ℚ) (i t : ℕ) (hi : i < n) (ht : t < n + r - 1) :
    kern a n r g i t = if i ≤ t ∧ t < i + r then g (t - i) else 0 := by
  have hα : n + r - 1 = (n + r - 2) + 1 := by omega
  set m := n + r - 2 with hm
  unfold kern
  rw [hα, Finset.sum_range_succ]
  have hAfn_last : Af a (m + 1) n m i = if i = n - 1 then 1 else 0 := by
    rw [Af, if_neg (by omega)]
  have hGlast : (∑ j in Finset.range r, Af a (m + 1) r m j * g j) = g (r - 1) := by
    have h : ∀ j ∈ Finset.range r, Af a (m + 1) r m j * g j
        = if j = r - 1 then g j else 0 := by
      intro j _
      rw [Af, if_neg (by omega)]
      by_cases hj : j = r - 1
      · simp [hj]
      · simp [hj]
    rw [Finset.sum_congr rfl h, Finset.sum_ite_eq' (Finset.range r) (r - 1) g,
      if_pos (Finset.mem_range.mpr (by omega))]
  by_cases htm : t < m
  · -- finite-column case `t < m`
    have hterm : ∀ s ∈ Finset.range m,
        Af a (m + 1) n s i * (∑ j in Finset.range r, Af a (m + 1) r s j * g j) *
            Bf a (m + 1) t s
          = a s ^ i * (∑ j in Finset.range r, a s ^ j * g j) * Lf a m t s := by
      intro s hs
      have hsm := Finset.mem_range.mp hs
      have hinner : (∑ j in Finset.range r, Af a (m + 1) r s j * g j)
          = ∑ j in Finset.range r, a s ^ j * g j := by
        refine Finset.sum_congr rfl fun j _ => ?_
        rw [Af, if_pos (by omega)]
      rw [Af, if_pos (by omega), hinner, Bf, if_pos (by omega)]
      have hmm : m + 1 - 1 = m := rfl
      rw [hmm, Btf_eq_Lf a m t s hsm]
    rw [Finset.sum_congr rfl hterm, hAfn_last, hGlast]
    have hBlast : Bf a (m + 1) t m = Btf a m t m := by
      rw [Bf, if_pos (by omega)]
      rfl
    rw [hBlast, Btf_last]
    have hmerge : (∑ s in Finset.range m,
          a s ^ i * (∑ j in Finset.range r, a s ^ j * g j) * Lf a m t s)
        + (if i = n - 1 then (1 : ℚ) else 0) * g (r - 1) *
            (∑ u in Finset.range m, Lf a m t u * (-(a u ^ m)))
        = ∑ s in Finset.range m, Lf a m t s *
            (a s ^ i * (∑ j in Finset.range r, a s ^ j * g j)
              - (if i = n - 1 then (1 : ℚ) else 0) * g (r - 1) * a s ^ m) := by
      rw [Finset.mul_sum, ← Finset.sum_add_distrib]
      refine Finset.sum_congr rfl fun s _ => ?_
      ring
    rw [hmerge]
    exact interp_unique a m hdist
      (fun t' => if i ≤ t' ∧ t' < i + r then g (t' - i) else 0)
      (fun s => a s ^ i * (∑ j in Finset.range r, a s ^ j * g j)
        - (if i = n - 1 then (1 : ℚ) else 0) * g (r - 1) * a s ^ m)
      (fun s _ => vdm_kstar a n r hn hr g i hi s) t htm
  · -- infinity-column case `t = m`
    have hzero : ∀ s ∈ Finset.range m,
        Af a (m + 1) n s i * (∑ j in Finset.range r, Af a (m + 1) r s j * g j) *
            Bf a (m + 1) t s = 0 := by
      intro s hs
      have hsm := Finset.mem_range.mp hs
      rw [Bf, if_neg (by omega), if_neg (by omega), mul_zero]
    rw [Finset.sum_eq_zero hzero, zero_add, hAfn_last, hGlast]
    have hBlast : Bf a (m + 1) t m = 1 := by
      rw [Bf, if_neg (by omega), if_pos (by omega)]
    rw [hBlast, mul_one]
    by_cases hi1 : i = n - 1
    · rw [if_pos hi1, one_mul, if_pos (by omega : i ≤ t ∧ t < i + r)]
      congr 1
      omega
    · rw [if_neg hi1, zero_mul, if_neg (by omega : ¬(i ≤ t ∧ t < i + r))]

lemma FdiagPlus1_diagonal (a : ℕ → ℚ) (al : ℕ) :
    FdiagPlus1 a al = Matrix.diagonal (fun s : Fin al => fdiagEntry a al s) := by
  ext i j
  rw [FdiagPlus1, Matrix.of_apply, Matrix.diagonal_apply, fdiagEntry]
  by_cases hij : i = j
  · subst hij
    by_cases h1 : (i : ℕ) < al - 1
    · simp [h1]
    · have h2 : (i : ℕ) = al - 1 := by
        have := i.isLt
        omega
      simp [h1, h2]
  · have hvij : (i : ℕ) ≠ (j : ℕ) := fun hc => hij (Fin.val_injective hc)
    rw [if_neg hij]
    by_cases h1 : (i : ℕ) < al - 1
    · by_cases h2 : (j : ℕ) < al - 1
      · simp [h1, h2, hvij]
      · simp [h1, h2]
    · have hi' := i.isLt
      rw [if_neg h1, if_neg (by omega)]

lemma FdiagPlus1_zero_entry (a : ℕ → ℚ) (al : ℕ) (h : 0 < al) :
    FdiagPlus1 a al ⟨0, h⟩ ⟨0, h⟩ = fdiagEntry a al 0 := by
  rw [FdiagPlus1_diagonal, Matrix.diagonal_apply_eq]

lemma fScale_diagonal (a : ℕ → ℚ) (al : ℕ) (hal : 0 < al) :
    fScale a al = Matrix.diagonal (fun s : Fin al => fEntry a al s) := by
  have hfe : ∀ s : ℕ, fEntry a al s
      = if fdiagEntry a al 0 < 0 ∧ s = 0 then -(fdiagEntry a al s) else fdiagEntry a al s :=
    fun s => rfl
  rw [fScale, dif_pos hal, FdiagPlus1_zero_entry a al hal]
  by_cases hneg : fdiagEntry a al 0 < 0
  · rw [if_pos hneg]
    ext i j
    by_cases hi0 : i = (⟨0, hal⟩ : Fin al)
    · subst hi0
      rw [Matrix.updateRow_self, FdiagPlus1_diagonal, Matrix.diagonal_apply,
        Matrix.diagonal_apply]
      by_cases hij : (⟨0, hal⟩ : Fin al) = j
      · rw [if_pos hij, if_pos hij, hfe, if_pos ⟨hneg, rfl⟩]
      · rw [if_neg hij, if_neg hij, neg_zero]
    · rw [Matrix.updateRow_ne hi0, FdiagPlus1_diagonal, Matrix.diagonal_apply,
        Matrix.diagonal_apply]
      by_cases hij : i = j
      · have hi0' : (i : ℕ) ≠ 0 := fun hc => hi0 (Fin.ext hc)
        rw [if_pos hij, if_pos hij, hfe, if_neg (by tauto)]
      · rw [if_neg hij, if_neg hij]
  · rw [if_neg hneg, FdiagPlus1_diagonal]
    have hfun : (fun s : Fin al => fdiagEntry a al ↑s) = fun s : Fin al => fEntry a al ↑s := by
      funext s
      rw [hfe, if_neg (by tauto)]
    rw [hfun]

lemma fdiagEntry_ne_zero (a : ℕ → ℚ) (al : ℕ)
    (hdist : ∀ i j, i < al - 1 → j < al - 1 → a i = a j → i = j) (s : ℕ) :
    fdiagEntry a al s ≠ 0 := by
  rw [fdiagEntry]
  by_cases h : s < al - 1
  · rw [if_pos h]
    exact Ff_ne_zero a (al - 1) hdist s h
  · rw [if_neg h]
    norm_num

lemma fEntry_ne_zero (a : ℕ → ℚ) (al : ℕ)
    (hdist : ∀ i j, i < al - 1 → j < al - 1 → a i = a j → i = j) (s : ℕ) :
    fEntry a al s ≠ 0 := by
  rw [fEntry]
  by_cases h : fdiagEntry a al 0 < 0 ∧ s = 0
  · rw [if_pos h]
    exact neg_ne_zero.mpr (fdiagEntry_ne_zero a al hdist s)
  · rw [if_neg h]
    exact fdiagEntry_ne_zero a al hdist s

lemma fEntry_last (a : ℕ → ℚ) (al : ℕ) :
    fEntry a al (al - 1) = 1 := by
  have hd : fdiagEntry a al (al - 1) = 1 := by
    rw [fdiagEntry, if_neg (by omega)]
  rw [fEntry]
  by_cases h : fdiagEntry a al 0 < 0 ∧ al - 1 = 0
  · exfalso
    have h0 : fdiagEntry a al 0 = 1 := by
      rw [← h.2, hd]
    rw [h0] at h
    norm_num at h
  · rw [if_neg h, hd]

lemma matInv_fScale (a : ℕ → ℚ) (al : ℕ) (hal : 0 < al)
    (hdist : ∀ i j, i < al - 1 → j < al - 1 → a i = a j → i = j) :
    matInv (fScale a al) = Matrix.diagonal (fun s : Fin al => (fEntry a al s)⁻¹) := by
  rw [matInv_eq_inv, fScale_diagonal a al hal]
  refine Matrix.inv_eq_right_inv ?_
  rw [Matrix.diagonal_mul_diagonal]
  have h : (fun s : Fin al => fEntry a al s * (fEntry a al s)⁻¹) = fun _ => 1 := by
    funext s
    exact mul_inv_cancel₀ (fEntry_ne_zero a al hdist s)
  rw [h, Matrix.diagonal_one]

lemma filterVerify_apply (n r : ℕ) (AT : Matrix (Fin n) (Fin (n + r - 1)) ℚ)
    (G : Matrix (Fin (n + r - 1)) (Fin r) ℚ)
    (BT : Matrix (Fin (n + r - 1)) (Fin (n + r - 1)) ℚ)
    (d g : ℕ → ℚ) (i : Fin n) :
    filterVerify n r AT G BT d g i 0
      = ∑ s : Fin (n + r - 1), AT i s *
          ((∑ j : Fin r, G s j * g ↑j) * (∑ t : Fin (n + r - 1), BT s t * d ↑t)) := by
  unfold filterVerify
  simp only [Matrix.mul_apply, Matrix.of_apply]

/-- Entrywise description of `filterVerify` through entry functions on `ℕ`. -/
lemma filterVerify_entry (n r : ℕ) (AT : Matrix (Fin n) (Fin (n + r - 1)) ℚ)
    (G : Matrix (Fin (n + r - 1)) (Fin r) ℚ)
    (BT : Matrix (Fin (n + r - 1)) (Fin (n + r - 1)) ℚ)
    (ATf Gf BTf : ℕ → ℕ → ℚ)
    (hAT : ∀ (i : Fin n) (s : Fin (n + r - 1)), AT i s = ATf ↑i ↑s)
    (hG : ∀ (s : Fin (n + r - 1)) (j : Fin r), G s j = Gf ↑s ↑j)
    (hBT : ∀ (s t : Fin (n + r - 1)), BT s t = BTf ↑s ↑t)
    (d g : ℕ → ℚ) (i : Fin n) :
    filterVerify n r AT G BT d g i 0
      = ∑ s in Finset.range (n + r - 1), ATf ↑i s *
          ((∑ j in Finset.range r, Gf s j * g j) *
            (∑ t in Finset.range (n + r - 1), BTf s t * d t)) := by
  rw [filterVerify_apply]
  have h1 : ∀ s : Fin (n + r - 1), (∑ j : Fin r, G s j * g ↑j)
      = ∑ j in Finset.range r, Gf ↑s j * g j := by
    intro s
    calc (∑ j : Fin r, G s j * g ↑j) = ∑ j : Fin r, Gf ↑s ↑j * g ↑j :=
          Finset.sum_congr rfl fun j _ => by rw [hG]
    _ = ∑ j in Finset.range r, Gf ↑s j * g j :=
          Fin.sum_univ_eq_sum_range (fun j => Gf ↑s j * g j) r
  have h2 : ∀ s : Fin (n + r - 1), (∑ t : Fin (n + r - 1), BT s t * d ↑t)
      = ∑ t in Finset.range (n + r - 1), BTf ↑s t * d t := by
    intro s
    calc (∑ t : Fin (n + r - 1), BT s t * d ↑t)
        = ∑ t : Fin (n + r - 1), BTf ↑s ↑t * d ↑t :=
          Finset.sum_congr rfl fun t _ => by rw [hBT]
    _ = ∑ t in Finset.range (n + r - 1), BTf ↑s t * d t :=
          Fin.sum_univ_eq_sum_range (fun t => BTf ↑s t * d t) (n + r - 1)
  simp only [h1, h2]
  calc (∑ s : Fin (n + r - 1), AT i s *
        ((∑ j in Finset.range r, Gf ↑s j * g j) *
          (∑ t in Finset.range (n + r - 1), BTf ↑s t * d t)))
      = ∑ s : Fin (n + r - 1), ATf ↑i ↑s *
        ((∑ j in Finset.range r, Gf ↑s j * g j) *
          (∑ t in Finset.range (n + r - 1), BTf ↑s t * d t)) :=
        Finset.sum_congr rfl fun s _ => by rw [hAT]
  _ = _ :=
        Fin.sum_univ_eq_sum_range (fun s => ATf ↑i s *
          ((∑ j in Finset.range r, Gf s j * g j) *
            (∑ t in Finset.range (n + r - 1), BTf s t * d t))) (n + r - 1)

/-- Swapping the data sum outwards turns the core expression into a sum of
`d t` against the kernel. -/
lemma sum_swap_kern (a : ℕ → ℚ) (n r : ℕ) (d g : ℕ → ℚ) (i : ℕ) :
    ∑ s in Finset.range (n + r - 1), Af a (n + r - 1) n s i *
        ((∑ j in Finset.range r, Af a (n + r - 1) r s j * g j) *
          (∑ t in Finset.range (n + r - 1), Bf a (n + r - 1) t s * d t))
      = ∑ t in Finset.range (n + r - 1), d t * kern a n r g i t := by
  have h1 : ∀ s ∈ Finset.range (n + r - 1),
      Af a (n + r - 1) n s i * ((∑ j in Finset.range r, Af a (n + r - 1) r s j * g j) *
        (∑ t in Finset.range (n + r - 1), Bf a (n + r - 1) t s * d t))
      = ∑ t in Finset.range (n + r - 1), d t *
          (Af a (n + r - 1) n s i * (∑ j in Finset.range r, Af a (n + r - 1) r s j * g j) *
            Bf a (n + r - 1) t s) := by
    intro s _
    rw [Finset.mul_sum, Finset.mul_sum]
    refine Finset.sum_congr rfl fun t _ => ?_
    ring
  rw [Finset.sum_congr rfl h1, Finset.sum_comm]
  refine Finset.sum_congr rfl fun t _ => ?_
  have hk : kern a n r g i t = ∑ s in Finset.range (n + r - 1),
      Af a (n + r - 1) n s i * (∑ j in Finset.range r, Af a (n + r - 1) r s j * g j) *
        Bf a (n + r - 1) t s := rfl
  rw [hk, Finset.mul_sum]

/-- Summing the data against the band kernel gives the FIR filter output. -/
lemma sum_d_band (n r : ℕ) (i : ℕ) (hi : i < n) (d g : ℕ → ℚ) :
    ∑ t in Finset.range (n + r - 1), d t * (if i ≤ t ∧ t < i + r then g (t - i) else 0)
      = ∑ k in Finset.range r, d (i + k) * g k := by
  have h1 : ∀ t ∈ Finset.range (n + r - 1),
      d t * (if i ≤ t ∧ t < i + r then g (t - i) else 0)
        = if i ≤ t ∧ t < i + r then d t * g (t - i) else 0 := by
    intro t _
    by_cases hc : i ≤ t ∧ t < i + r
    · simp [hc]
    · simp [hc]
  rw [Finset.sum_congr rfl h1, ← Finset.sum_filter]
  have hfilter : (Finset.range (n + r - 1)).filter (fun t => i ≤ t ∧ t < i + r)
      = Finset.Ico i (i + r) := by
    ext t
    simp only [Finset.mem_filter, Finset.mem_range, Finset.mem_Ico]
    omega
  rw [hfilter, Finset.sum_Ico_eq_sum_range]
  have h2 : i + r - i = r := by omega
  rw [h2]
  refine Finset.sum_congr rfl fun k _ => ?_
  have h3 : i + k - i = k := by omega
  rw [h3]

lemma cookToomFilter_G_AT (a : ℕ → ℚ) (n r : ℕ) :
    (cookToomFilter a n r FractionsInG).1 = (A a (n + r - 1) n).transpose := rfl

lemma cookToomFilter_G_G (a : ℕ → ℚ) (n r : ℕ) :
    (cookToomFilter a n r FractionsInG).2.1
      = ((A a (n + r - 1) r).transpose * matInv (fScale a (n + r - 1))).transpose := rfl

lemma cookToomFilter_G_BT (a : ℕ → ℚ) (n r : ℕ) :
    (cookToomFilter a n r FractionsInG).2.2.1
      = fScale a (n + r - 1) * (B a (n + r - 1)).transpose := rfl

lemma cookToomFilter_f (a : ℕ → ℚ) (n r p : ℕ) :
    (cookToomFilter a n r p).2.2.2 = fScale a (n + r - 1) := by
  rw [cookToomFilter]
  by_cases h0 : p = FractionsInG
  · rw [if_pos h0]
  · rw [if_neg h0]
    by_cases h1 : p = FractionsInA
    · rw [if_pos h1]
    · rw [if_neg h1]
      by_cases h2 : p = FractionsInB
      · rw [if_pos h2]
      · rw [if_neg h2]

lemma cookToomFilter_A_AT (a : ℕ → ℚ) (n r : ℕ) :
    (cookToomFilter a n r FractionsInA).1
      = (A a (n + r - 1) n).transpose * matInv (fScale a (n + r - 1)) := rfl

lemma cookToomFilter_A_G (a : ℕ → ℚ) (n r : ℕ) :
    (cookToomFilter a n r FractionsInA).2.1 = A a (n + r - 1) r := rfl

lemma cookToomFilter_A_BT (a : ℕ → ℚ) (n r : ℕ) :
    (cookToomFilter a n r FractionsInA).2.2.1
      = fScale a (n + r - 1) * (B a (n + r - 1)).transpose := rfl

lemma cookToomFilter_B_AT (a : ℕ → ℚ) (n r : ℕ) :
    (cookToomFilter a n r FractionsInB).1 = (A a (n + r - 1) n).transpose := rfl

lemma cookToomFilter_B_G (a : ℕ → ℚ) (n r : ℕ) :
    (cookToomFilter a n r FractionsInB).2.1 = A a (n + r - 1) r := rfl

lemma cookToomFilter_B_BT (a : ℕ → ℚ) (n r : ℕ) :
    (cookToomFilter a n r FractionsInB).2.2.1 = (B a (n + r - 1)).transpose := rfl

lemma cookToomFilter_F_AT (a : ℕ → ℚ) (n r : ℕ) :
    (cookToomFilter a n r FractionsInF).1 = (A a (n + r - 1) n).transpose := rfl

lemma cookToomFilter_F_G (a : ℕ → ℚ) (n r : ℕ) :
    (cookToomFilter a n r FractionsInF).2.1 = A a (n + r - 1) r := rfl

lemma cookToomFilter_F_BT (a : ℕ → ℚ) (n r : ℕ) :
    (cookToomFilter a n r FractionsInF).2.2.1
      = fScale a (n + r - 1) * (B a (n + r - 1)).transpose := rfl

lemma BT_scaled_apply (a : ℕ → ℚ) (al : ℕ) (hal : 0 < al) (s t : Fin al) :
    (fScale a al * (B a al).transpose) s t = fEntry a al ↑s * Bf a al ↑t ↑s := by
  rw [fScale_diagonal a al hal, Matrix.diagonal_mul, Matrix.transpose_apply, B_apply]

lemma G_scaled_apply (a : ℕ → ℚ) (al r : ℕ) (hal : 0 < al)
    (hdist : ∀ i j, i < al - 1 → j < al - 1 → a i = a j → i = j)
    (s : Fin al) (j : Fin r) :
    ((A a al r).transpose * matInv (fScale a al)).transpose s j
      = Af a al r ↑s ↑j * (fEntry a al ↑s)⁻¹ := by
  rw [Matrix.transpose_apply, matInv_fScale a al hal hdist, Matrix.mul_diagonal,
    Matrix.transpose_apply, A_apply]

lemma AT_scaled_apply (a : ℕ → ℚ) (al n : ℕ) (hal : 0 < al)
    (hdist : ∀ i j, i < al - 1 → j < al - 1 → a i = a j → i = j)
    (i : Fin n) (s : Fin al) :
    ((A a al n).transpose * matInv (fScale a al)) i s
      = Af a al n ↑s ↑i * (fEntry a al ↑s)⁻¹ := by
  rw [matInv_fScale a al hal hdist, Matrix.mul_diagonal, Matrix.transpose_apply, A_apply]

/-- The filter identity `AT ((G g) ∘ (BT d)) = FIR(d, g)` for the three
policies that keep the fractions inside the transforms. -/
lemma filterVerify_correct (a : ℕ → ℚ) (n r p : ℕ) (hn : 1 ≤ n) (hr : 1 ≤ r)
    (hdist : ∀ i j, i < n + r - 2 → j < n + r - 2 → a i = a j → i = j)
    (hp : p = FractionsInG ∨ p = FractionsInA ∨ p = FractionsInB)
    (d g : ℕ → ℚ) (i : Fin n) :
    filterVerify n r (cookToomFilter a n r p).1 (cookToomFilter a n r p).2.1
        (cookToomFilter a n r p).2.2.1 d g i 0
      = ∑ k in Finset.range r, d (↑i + k) * g k := by
  have hal : 0 < n + r - 1 := by omega
  have hdist' : ∀ x y, x < (n + r - 1) - 1 → y < (n + r - 1) - 1 → a x = a y → x = y := by
    intro x y hx hy
    exact hdist x y (by omega) (by omega)
  have hkernsum : ∀ dd : ℕ → ℚ,
      (∑ t in Finset.range (n + r - 1), dd t * kern a n r g ↑i t)
        = ∑ k in Finset.range r, dd (↑i + k) * g k := by
    intro dd
    rw [Finset.sum_congr rfl (fun t ht' => by
        rw [kern_eq a n r hn hr hdist g ↑i t i.isLt (Finset.mem_range.mp ht')]),
      sum_d_band n r ↑i i.isLt dd g]
  have hcancel : ∀ (x y z w : ℚ), w ≠ 0 → x * ((w⁻¹ * y) * (w * z)) = x * (y * z) := by
    intro x y z w hw
    field_simp
    ring
  have hcancel2 : ∀ (x y z w : ℚ), w ≠ 0 → x * w⁻¹ * (y * (w * z)) = x * (y * z) := by
    intro x y z w hw
    field_simp
    ring
  rcases hp with hp | hp | hp <;> subst hp
  · -- fractions in G
    rw [cookToomFilter_G_AT, cookToomFilter_G_G, cookToomFilter_G_BT]
    rw [filterVerify_entry n r
      (A a (n + r - 1) n).transpose
      ((A a (n + r - 1) r).transpose * matInv (fScale a (n + r - 1))).transpose
      (fScale a (n + r - 1) * (B a (n + r - 1)).transpose)
      (fun i' s => Af a (n + r - 1) n s i')
      (fun s j => Af a (n + r - 1) r s j * (fEntry a (n + r - 1) s)⁻¹)
      (fun s t => fEntry a (n + r - 1) s * Bf a (n + r - 1) t s)
      (fun _ _ => rfl)
      (fun s j => G_scaled_apply a (n + r - 1) r hal hdist' s j)
      (fun s t => BT_scaled_apply a (n + r - 1) hal s t) d g i]
    have hcongr : ∀ s ∈ Finset.range (n + r - 1),
        Af a (n + r - 1) n s ↑i *
            ((∑ j in Finset.range r, Af a (n + r - 1) r s j * (fEntry a (n + r - 1) s)⁻¹ * g j) *
              (∑ t in Finset.range (n + r - 1), fEntry a (n + r - 1) s * Bf a (n + r - 1) t s * d t))
          = Af a (n + r - 1) n s ↑i *
              ((∑ j in Finset.range r, Af a (n + r - 1) r s j * g j) *
                (∑ t in Finset.range (n + r - 1), Bf a (n + r - 1) t s * d t)) := by
      intro s _
      have hf := fEntry_ne_zero a (n + r - 1) hdist' s
      have hj : (∑ j in Finset.range r, Af a (n + r - 1) r s j * (fEntry a (n + r - 1) s)⁻¹ * g j)
          = (fEntry a (n + r - 1) s)⁻¹ * ∑ j in Finset.range r, Af a (n + r - 1) r s j * g j := by
        rw [Finset.mul_sum]
        exact Finset.sum_congr rfl fun j _ => by ring
      have ht : (∑ t in Finset.range (n + r - 1),
            fEntry a (n + r - 1) s * Bf a (n + r - 1) t s * d t)
          = fEntry a (n + r - 1) s *
              ∑ t in Finset.range (n + r - 1), Bf a (n + r - 1) t s * d t := by
        rw [Finset.mul_sum]
        exact Finset.sum_congr rfl fun t _ => by ring
      rw [hj, ht, hcancel _ _ _ _ hf]
    rw [Finset.sum_congr rfl hcongr, sum_swap_kern, hkernsum d]
  · -- fractions in A
    rw [cookToomFilter_A_AT, cookToomFilter_A_G, cookToomFilter_A_BT]
    rw [filterVerify_entry n r
      ((A a (n + r - 1) n).transpose * matInv (fScale a (n + r - 1)))
      (A a (n + r - 1) r)
      (fScale a (n + r - 1) * (B a (n + r - 1)).transpose)
      (fun i' s => Af a (n + r - 1) n s i' * (fEntry a (n + r - 1) s)⁻¹)
      (fun s j => Af a (n + r - 1) r s j)
      (fun s t => fEntry a (n + r - 1) s * Bf a (n + r - 1) t s)
      (fun i' s => AT_scaled_apply a (n + r - 1) n hal hdist' i' s)
      (fun _ _ => rfl)
      (fun s t => BT_scaled_apply a (n + r - 1) hal s t) d g i]
    have hcongr : ∀ s ∈ Finset.range (n + r - 1),
        Af a (n + r - 1) n s ↑i * (fEntry a (n + r - 1) s)⁻¹ *
            ((∑ j in Finset.range r, Af a (n + r - 1) r s j * g j) *
              (∑ t in Finset.range (n + r - 1), fEntry a (n + r - 1) s * Bf a (n + r - 1) t s * d t))
          = Af a (n + r - 1) n s ↑i *
              ((∑ j in Finset.range r, Af a (n + r - 1) r s j * g j) *
                (∑ t in Finset.range (n + r - 1), Bf a (n + r - 1) t s * d t)) := by
      intro s _
      have hf := fEntry_ne_zero a (n + r - 1) hdist' s
      have ht : (∑ t in Finset.range (n + r - 1),
            fEntry a (n + r - 1) s * Bf a (n + r - 1) t s * d t)
          = fEntry a (n + r - 1) s *
              ∑ t in Finset.range (n + r - 1), Bf a (n + r - 1) t s * d t := by
        rw [Finset.mul_sum]
        exact Finset.sum_congr rfl fun t _ => by ring
      rw [ht, hcancel2 _ _ _ _ hf]
    rw [Finset.sum_congr rfl hcongr, sum_swap_kern, hkernsum d]
  · -- fractions in B
    rw [cookToomFilter_B_AT, cookToomFilter_B_G, cookToomFilter_B_BT]
    rw [filterVerify_entry n r
      (A a (n + r - 1) n).transpose
      (A a (n + r - 1) r)
      (B a (n + r - 1)).transpose
      (fun i' s => Af a (n + r - 1) n s i')
      (fun s j => Af a (n + r - 1) r s j)
      (fun s t => Bf a (n + r - 1) t s)
      (fun _ _ => rfl) (fun _ _ => rfl) (fun _ _ => rfl) d g i]
    rw [sum_swap_kern, hkernsum d]

lemma convolutionVerify_apply (n r : ℕ)
    (Bc : Matrix (Fin (n + r - 1)) (Fin (n + r - 1)) ℚ)
    (G : Matrix (Fin (n + r - 1)) (Fin r) ℚ)
    (Ac : Matrix (Fin (n + r - 1)) (Fin n) ℚ)
    (d g : ℕ → ℚ) (s : Fin (n + r - 1)) :
    convolutionVerify n r Bc G Ac d g s 0
      = ∑ t : Fin (n + r - 1), Bc s t *
          ((∑ j : Fin r, G t j * g ↑j) * (∑ i : Fin n, Ac t i * d ↑i)) := by
  unfold convolutionVerify
  simp only [Matrix.mul_apply, Matrix.of_apply]

lemma convolutionVerify_entry (n r : ℕ)
    (Bc : Matrix (Fin (n + r - 1)) (Fin (n + r - 1)) ℚ)
    (G : Matrix (Fin (n + r - 1)) (Fin r) ℚ)
    (Ac : Matrix (Fin (n + r - 1)) (Fin n) ℚ)
    (Bcf Gf Acf : ℕ → ℕ → ℚ)
    (hB : ∀ (s t : Fin (n + r - 1)), Bc s t = Bcf ↑s ↑t)
    (hG : ∀ (t : Fin (n + r - 1)) (j : Fin r), G t j = Gf ↑t ↑j)
    (hA : ∀ (t : Fin (n + r - 1)) (i : Fin n), Ac t i = Acf ↑t ↑i)
    (d g : ℕ → ℚ) (s : Fin (n + r - 1)) :
    convolutionVerify n r Bc G Ac d g s 0
      = ∑ t in Finset.range (n + r - 1), Bcf ↑s t *
          ((∑ j in Finset.range r, Gf t j * g j) *
            (∑ i in Finset.range n, Acf t i * d i)) := by
  rw [convolutionVerify_apply]
  have h1 : ∀ t : Fin (n + r - 1), (∑ j : Fin r, G t j * g ↑j)
      = ∑ j in Finset.range r, Gf ↑t j * g j := by
    intro t
    calc (∑ j : Fin r, G t j * g ↑j) = ∑ j : Fin r, Gf ↑t ↑j * g ↑j :=
          Finset.sum_congr rfl fun j _ => by rw [hG]
    _ = ∑ j in Finset.range r, Gf ↑t j * g j :=
          Fin.sum_univ_eq_sum_range (fun j => Gf ↑t j * g j) r
  have h2 : ∀ t : Fin (n + r - 1), (∑ i : Fin n, Ac t i * d ↑i)
      = ∑ i in Finset.range n, Acf ↑t i * d i := by
    intro t
    calc (∑ i : Fin n, Ac t i * d ↑i) = ∑ i : Fin n, Acf ↑t ↑i * d ↑i :=
          Finset.sum_congr rfl fun i _ => by rw [hA]
    _ = ∑ i in Finset.range n, Acf ↑t i * d i :=
          Fin.sum_univ_eq_sum_range (fun i => Acf ↑t i * d i) n
  simp only [h1, h2]
  calc (∑ t : Fin (n + r - 1), Bc s t *
        ((∑ j in Finset.range r, Gf ↑t j * g j) * (∑ i in Finset.range n, Acf ↑t i * d i)))
      = ∑ t : Fin (n + r - 1), Bcf ↑s ↑t *
        ((∑ j in Finset.range r, Gf ↑t j * g j) * (∑ i in Finset.range n, Acf ↑t i * d i)) :=
        Finset.sum_congr rfl fun t _ => by rw [hB]
  _ = _ :=
        Fin.sum_univ_eq_sum_range (fun t => Bcf ↑s t *
          ((∑ j in Finset.range r, Gf t j * g j) *
            (∑ i in Finset.range n, Acf t i * d i))) (n + r - 1)

lemma sum_swap_kern_conv (a : ℕ → ℚ) (n r : ℕ) (d g : ℕ → ℚ) (s : ℕ) :
    ∑ t in Finset.range (n + r - 1), Bf a (n + r - 1) s t *
        ((∑ j in Finset.range r, Af a (n + r - 1) r t j * g j) *
          (∑ i in Finset.range n, Af a (n + r - 1) n t i * d i))
      = ∑ i in Finset.range n, d i * kern a n r g i s := by
  have h1 : ∀ t ∈ Finset.range (n + r - 1),
      Bf a (n + r - 1) s t * ((∑ j in Finset.range r, Af a (n + r - 1) r t j * g j) *
        (∑ i in Finset.range n, Af a (n + r - 1) n t i * d i))
      = ∑ i in Finset.range n, d i *
          (Af a (n + r - 1) n t i * (∑ j in Finset.range r, Af a (n + r - 1) r t j * g j) *
            Bf a (n + r - 1) s t) := by
    intro t _
    rw [Finset.mul_sum, Finset.mul_sum]
    refine Finset.sum_congr rfl fun i _ => ?_
    ring
  rw [Finset.sum_congr rfl h1, Finset.sum_comm]
  refine Finset.sum_congr rfl fun i _ => ?_
  have hk : kern a n r g i s = ∑ t in Finset.range (n + r - 1),
      Af a (n + r - 1) n t i * (∑ j in Finset.range r, Af a (n + r - 1) r t j * g j) *
        Bf a (n + r - 1) s t := rfl
  rw [hk, Finset.mul_sum]

lemma conv_band_sum (n r : ℕ) (s : ℕ) (d g : ℕ → ℚ) :
    ∑ j in Finset.range n, d j * (if j ≤ s ∧ s < j + r then g (s - j) else 0)
      = ∑ j in Finset.range n, ∑ k in Finset.range r, (if j + k = s then d j * g k else 0) := by
  refine Finset.sum_congr rfl fun j _ => ?_
  by_cases hc : j ≤ s ∧ s < j + r
  · rw [if_pos hc]
    rw [Finset.sum_eq_single_of_mem (f := fun k => if j + k = s then d j * g k else 0)
      (s - j) (Finset.mem_range.mpr (by omega)) ?_]
    · rw [if_pos (by omega)]
    · intro k _ hne
      show (if j + k = s then d j * g k else 0) = 0
      rw [if_neg (by omega)]
  · rw [if_neg hc, mul_zero, eq_comm]
    refine Finset.sum_eq_zero fun k hk => ?_
    have hkr := Finset.mem_range.mp hk
    rw [if_neg (by omega)]

/-- The convolution identity `B ((G g) ∘ (A d)) = d * g` for the
fractions-in-filter policy (with `A`, `B` the transposes of `AT`, `BT`). -/
lemma convolutionVerify_correct (a : ℕ → ℚ) (n r : ℕ) (hn : 1 ≤ n) (hr : 1 ≤ r)
    (hdist : ∀ i j, i < n + r - 2 → j < n + r - 2 → a i = a j → i = j)
    (d g : ℕ → ℚ) (s : Fin (n + r - 1)) :
    convolutionVerify n r (cookToomFilter a n r FractionsInG).2.2.1.transpose
        (cookToomFilter a n r FractionsInG).2.1
        (cookToomFilter a n r FractionsInG).1.transpose d g s 0
      = ∑ j in Finset.range n, ∑ k in Finset.range r, (if j + k = ↑s then d j * g k else 0) := by
  have hal : 0 < n + r - 1 := by omega
  have hdist' : ∀ x y, x < (n + r - 1) - 1 → y < (n + r - 1) - 1 → a x = a y → x = y := by
    intro x y hx hy
    exact hdist x y (by omega) (by omega)
  rw [cookToomFilter_G_BT, cookToomFilter_G_G, cookToomFilter_G_AT]
  rw [convolutionVerify_entry n r
    (fScale a (n + r - 1) * (B a (n + r - 1)).transpose).transpose
    ((A a (n + r - 1) r).transpose * matInv (fScale a (n + r - 1))).transpose
    (A a (n + r - 1) n).transpose.transpose
    (fun s' t => fEntry a (n + r - 1) t * Bf a (n + r - 1) s' t)
    (fun t j => Af a (n + r - 1) r t j * (fEntry a (n + r - 1) t)⁻¹)
    (fun t i => Af a (n + r - 1) n t i)
    (fun s' t => BT_scaled_apply a (n + r - 1) hal t s')
    (fun t j => G_scaled_apply a (n + r - 1) r hal hdist' t j)
    (fun _ _ => rfl) d g s]
  have hcongr : ∀ t ∈ Finset.range (n + r - 1),
      fEntry a (n + r - 1) t * Bf a (n + r - 1) ↑s t *
          ((∑ j in Finset.range r, Af a (n + r - 1) r t j * (fEntry a (n + r - 1) t)⁻¹ * g j) *
            (∑ i in Finset.range n, Af a (n + r - 1) n t i * d i))
        = Bf a (n + r - 1) ↑s t *
            ((∑ j in Finset.range r, Af a (n + r - 1) r t j * g j) *
              (∑ i in Finset.range n, Af a (n + r - 1) n t i * d i)) := by
    intro t _
    have hf := fEntry_ne_zero a (n + r - 1) hdist' t
    have hj : (∑ j in Finset.range r, Af a (n + r - 1) r t j * (fEntry a (n + r - 1) t)⁻¹ * g j)
        = (fEntry a (n + r - 1) t)⁻¹ *
            ∑ j in Finset.range r, Af a (n + r - 1) r t j * g j := by
      rw [Finset.mul_sum]
      exact Finset.sum_congr rfl fun j _ => by ring
    rw [hj]
    have hcan : ∀ (x y z w : ℚ), w ≠ 0 → w * x * ((w⁻¹ * y) * z) = x * (y * z) := by
      intro x y z w hw
      field_simp
      ring
    exact hcan _ _ _ _ hf
  rw [Finset.sum_congr rfl hcongr, sum_swap_kern_conv]
  have hkern : ∀ i ∈ Finset.range n, d i * kern a n r g i ↑s
      = d i * (if i ≤ ↑s ∧ ↑s < i + r then g (↑s - i) else 0) := by
    intro i hi
    rw [kern_eq a n r hn hr hdist g i ↑s (Finset.mem_range.mp hi) s.isLt]
  rw [Finset.sum_congr rfl hkern, conv_band_sum]

/-- C1: for any `n + r - 2` pairwise-distinct interpolation points and any
policy among `FractionsInG`, `FractionsInA`, `FractionsInB`, the matrices
`(AT, G, BT)` returned by `cookToomFilter` satisfy
`AT ((G·g) ∘ (BT·d)) = y` with `y i = ∑ k < r, d (i+k) * g k`, the direct
FIR convolution, over all assignments of the formal symbols `d`, `g`. -/
theorem C1_filterVerify_fir_identity (a : ℕ → ℚ) (n r p : ℕ) (hn : 1 ≤ n) (hr : 1 ≤ r)
    (hdist : ∀ i j, i < n + r - 2 → j < n + r - 2 → a i = a j → i = j)
    (hp : p = FractionsInG ∨ p = FractionsInA ∨ p = FractionsInB)
    (d g : ℕ → ℚ) (i : Fin n) :
    filterVerify n r (cookToomFilter a n r p).1 (cookToomFilter a n r p).2.1
        (cookToomFilter a n r p).2.2.1 d g i 0
      = ∑ k in Finset.range r, d (↑i + k) * g k :=
  filterVerify_correct a n r p hn hr hdist hp d g i

/-- Witness for C1 at points `(0, 1, -1)`, `n = 2`, `r = 3`, policy
`FractionsInG`, output row 1. -/
theorem C1_filterVerify_fir_identity_witness :
    filterVerify 2 3 (cookToomFilter exPts 2 3 FractionsInG).1
        (cookToomFilter exPts 2 3 FractionsInG).2.1
        (cookToomFilter exPts 2 3 FractionsInG).2.2.1 dEx gEx 1 0
      = ∑ k in Finset.range 3, dEx (1 + k) * gEx k :=
  C1_filterVerify_fir_identity exPts 2 3 FractionsInG (by norm_num) (by norm_num)
    (by
      intro i j hi hj h
      interval_cases i <;> interval_cases j <;> revert h <;> decide)
    (Or.inl rfl) dEx gEx 1

/-- C2: for any `n + r - 2` pairwise-distinct interpolation points, with
`A = ATᵀ` and `B = BTᵀ` from `cookToomFilter` under `FractionsInG`,
`convolutionVerify (n, r, B, G, A)` is the exact linear-convolution vector
`y s = ∑ (j, k), j + k = s → d j * g k` over all assignments of the formal
symbols, for `s = 0 … n+r-2`. -/
theorem C2_convolutionVerify_identity (a : ℕ → ℚ) (n r : ℕ) (hn : 1 ≤ n) (hr : 1 ≤ r)
    (hdist : ∀ i j, i < n + r - 2 → j < n + r - 2 → a i = a j → i = j)
    (d g : ℕ → ℚ) (s : Fin (n + r - 1)) :
    convolutionVerify n r (cookToomFilter a n r FractionsInG).2.2.1.transpose
        (cookToomFilter a n r FractionsInG).2.1
        (cookToomFilter a n r FractionsInG).1.transpose d g s 0
      = ∑ j in Finset.range n, ∑ k in Finset.range r, (if j + k = ↑s then d j * g k else 0) :=
  convolutionVerify_correct a n r hn hr hdist d g s

/-- Witness for C2 at points `(0, 1, -1)`, `n = 2`, `r = 3`, output row 2. -/
theorem C2_convolutionVerify_identity_witness :
    convolutionVerify 2 3 (cookToomFilter exPts 2 3 FractionsInG).2.2.1.transpose
        (cookToomFilter exPts 2 3 FractionsInG).2.1
        (cookToomFilter exPts 2 3 FractionsInG).1.transpose dEx gEx 2 0
      = ∑ j in Finset.range 2, ∑ k in Finset.range 3, (if j + k = 2 then dEx j * gEx k else 0) :=
  C2_convolutionVerify_identity exPts 2 3 (by norm_num) (by norm_num)
    (by
      intro i j hi hj h
      interval_cases i <;> interval_cases j <;> revert h <;> decide)
    dEx gEx 2

/-- C3 fails as stated: under the `FractionsInF` policy the `filterVerify`
output is not the direct convolution.  At points `(0, 1, -1)`, `n = 2`,
`r = 3`, `d = e₁`, `g = e₀`, row 1 gives 2 instead of 1. -/
theorem C3_counterexample :
    filterVerify 2 3 (cookToomFilter exPts 2 3 FractionsInF).1
        (cookToomFilter exPts 2 3 FractionsInF).2.1
        (cookToomFilter exPts 2 3 FractionsInF).2.2.1 dInd gInd 1 0
      ≠ ∑ k in Finset.range 3, dInd (1 + k) * gInd k := by
  rw [cookToomFilter_F_AT, cookToomFilter_F_G, cookToomFilter_F_BT, filterVerify_apply]
  norm_num [Fin.sum_univ_succ, Matrix.mul_apply, Matrix.transpose_apply, Matrix.of_apply,
    A_apply, B_apply, Af, Bf, Btf, Lf, Tf, Ff, Lx, polyProd, pMul, pAdd, pSmul, pCoeff,
    fScale, FdiagPlus1, Matrix.updateRow_apply, exPts, dInd, gInd, Finset.sum_range_succ,
    Finset.prod_range_succ, List.range_succ]
  decide

/-- C3 amended: the `filterVerify` identity holds for every policy except
`FractionsInF` (which returns unscaled integer matrices and is exempt from
the identity by design). -/
theorem C3_filterVerify_identity_non_scale_policies (a : ℕ → ℚ) (n r p : ℕ)
    (hn : 1 ≤ n) (hr : 1 ≤ r)
    (hdist : ∀ i j, i < n + r - 2 → j < n + r - 2 → a i = a j → i = j)
    (hp : p < FractionsInF)
    (d g : ℕ → ℚ) (i : Fin n) :
    filterVerify n r (cookToomFilter a n r p).1 (cookToomFilter a n r p).2.1
        (cookToomFilter a n r p).2.2.1 d g i 0
      = ∑ k in Finset.range r, d (↑i + k) * g k := by
  have h3 : p < 3 := hp
  have hor : p = 0 ∨ p = 1 ∨ p = 2 := by omega
  exact filterVerify_correct a n r p hn hr hdist hor d g i

/-- Witness for the amended C3 at policy `FractionsInB`. -/
theorem C3_filterVerify_identity_non_scale_policies_witness :
    filterVerify 2 3 (cookToomFilter exPts 2 3 FractionsInB).1
        (cookToomFilter exPts 2 3 FractionsInB).2.1
        (cookToomFilter exPts 2 3 FractionsInB).2.2.1 dEx gEx 0 0
      = ∑ k in Finset.range 3, dEx (0 + k) * gEx k :=
  C3_filterVerify_identity_non_scale_policies exPts 2 3 FractionsInB (by norm_num)
    (by norm_num)
    (by
      intro i j hi hj h
      interval_cases i <;> interval_cases j <;> revert h <;> decide)
    (by norm_num [FractionsInB, FractionsInF]) dEx gEx 0

/-- C4: `cookToomFilter((0, 1, −1), 2, 3)` under the default
fractions-in-filter policy returns exactly the reference matrices
`AT = [[1,1,1,0],[0,1,−1,1]]`,
`G = [[1,0,0],[1/2,1/2,1/2],[1/2,−1/2,1/2],[0,0,1]]`,
`BT = [[1,0,−1,0],[0,1,1,0],[0,−1,1,0],[0,−1,0,1]]`. -/
theorem C4_f2x3_reference_matrices :
    (cookToomFilter exPts 2 3 FractionsInG).1
        = Matrix.of (fun (i : Fin 2) (j : Fin (2 + 3 - 1)) =>
            ((([[1, 1, 1, 0], [0, 1, -1, 1]] : List (List ℚ)).getD ↑i []).getD ↑j 0))
    ∧ (cookToomFilter exPts 2 3 FractionsInG).2.1
        = Matrix.of (fun (i : Fin (2 + 3 - 1)) (j : Fin 3) =>
            ((([[1, 0, 0], [1/2, 1/2, 1/2], [1/2, -1/2, 1/2], [0, 0, 1]] :
              List (List ℚ)).getD ↑i []).getD ↑j 0))
    ∧ (cookToomFilter exPts 2 3 FractionsInG).2.2.1
        = Matrix.of (fun (i : Fin (2 + 3 - 1)) (j : Fin (2 + 3 - 1)) =>
            ((([[1, 0, -1, 0], [0, 1, 1, 0], [0, -1, 1, 0], [0, -1, 0, 1]] :
              List (List ℚ)).getD ↑i []).getD ↑j 0)) := by
  have hal : 0 < 2 + 3 - 1 := by norm_num
  have hdist' : ∀ x y, x < 2 + 3 - 1 - 1 → y < 2 + 3 - 1 - 1 → exPts x = exPts y → x = y := by
    intro x y hx hy h
    interval_cases x <;> interval_cases y <;> revert h <;> decide
  refine ⟨?_, ?_, ?_⟩
  · rw [cookToomFilter_G_AT]
    ext i j
    fin_cases i <;> fin_cases j <;> norm_num [A, Af, exPts]
  · rw [cookToomFilter_G_G]
    ext s j
    rw [G_scaled_apply exPts (2 + 3 - 1) 3 hal hdist' s j]
    fin_cases s <;> fin_cases j <;>
      norm_num [Af, fEntry, fdiagEntry, Ff, exPts, Finset.prod_range_succ]
  · rw [cookToomFilter_G_BT]
    ext s t
    rw [BT_scaled_apply exPts (2 + 3 - 1) hal s t]
    fin_cases s <;> fin_cases t <;>
      norm_num [Bf, Btf, Lf, Tf, Lx, Ff, fEntry, fdiagEntry, exPts, polyProd, pMul, pAdd,
        pSmul, pCoeff, Finset.prod_range_succ, Finset.sum_range_succ, List.range_succ]

/-- C6: for every valid input and every policy, the `(0,0)` entry of the
returned scale matrix `f` is non-negative (sign normalization). -/
theorem C6_scale_sign_nonneg (a : ℕ → ℚ) (n r p : ℕ) (hn : 1 ≤ n) (hr : 1 ≤ r)
    (_hdist : ∀ i j, i < n + r - 2 → j < n + r - 2 → a i = a j → i = j) :
    0 ≤ (cookToomFilter a n r p).2.2.2 ⟨0, by omega⟩ ⟨0, by omega⟩ := by
  have hal : 0 < n + r - 1 := by omega
  rw [cookToomFilter_f, fScale_diagonal a (n + r - 1) hal, Matrix.diagonal_apply_eq]
  show 0 ≤ fEntry a (n + r - 1) 0
  have hfe : fEntry a (n + r - 1) 0
      = if fdiagEntry a (n + r - 1) 0 < 0 ∧ (0 : ℕ) = 0 then -(fdiagEntry a (n + r - 1) 0)
        else fdiagEntry a (n + r - 1) 0 := rfl
  by_cases hneg : fdiagEntry a (n + r - 1) 0 < 0
  · rw [hfe, if_pos ⟨hneg, rfl⟩]
    linarith
  · rw [hfe, if_neg (by tauto)]
    linarith [not_lt.mp hneg]

/-- Witness for C6 at points `(0, 1, -1)`, `n = 2`, `r = 3`, default policy. -/
theorem C6_scale_sign_nonneg_witness :
    0 ≤ (cookToomFilter exPts 2 3 FractionsInG).2.2.2 ⟨0, by norm_num⟩ ⟨0, by norm_num⟩ :=
  C6_scale_sign_nonneg exPts 2 3 FractionsInG (by norm_num) (by norm_num)
    (by
      intro i j hi hj h
      interval_cases i <;> interval_cases j <;> revert h <;> decide)

/-- C7: for every input and policy, the returned `f` is an `α×α` diagonal
matrix whose last diagonal entry (the point at infinity) equals 1; the
shapes `AT : (n, α)`, `G : (α, r)`, `BT : (α, α)`, `f : (α, α)` with
`α = n + r - 1` are enforced by the return type of `cookToomFilter`. -/
theorem C7_shapes_f_diagonal (a : ℕ → ℚ) (n r p : ℕ) (hn : 1 ≤ n) (hr : 1 ≤ r) :
    (∀ i j : Fin (n + r - 1), (i : ℕ) ≠ (j : ℕ) → (cookToomFilter a n r p).2.2.2 i j = 0)
    ∧ (∀ i j : Fin (n + r - 1), (i : ℕ) = n + r - 2 → (j : ℕ) = n + r - 2 →
        (cookToomFilter a n r p).2.2.2 i j = 1) := by
  have hal : 0 < n + r - 1 := by omega
  rw [cookToomFilter_f, fScale_diagonal a (n + r - 1) hal]
  constructor
  · intro i j hij
    exact Matrix.diagonal_apply_ne _ fun hc => hij (congrArg Fin.val hc)
  · intro i j hi hj
    have hij : i = j := Fin.ext (by rw [hi, hj])
    subst hij
    rw [Matrix.diagonal_apply_eq]
    show fEntry a (n + r - 1) ↑i = 1
    rw [hi]
    have harg : n + r - 2 = (n + r - 1) - 1 := by omega
    rw [harg]
    exact fEntry_last a (n + r - 1)

/-- Witness for C7 at points `(0, 1, -1)`, `n = 2`, `r = 3`, default policy:
the last diagonal entry is 1 and an off-diagonal entry is 0. -/
theorem C7_shapes_f_diagonal_witness :
    (cookToomFilter exPts 2 3 FractionsInG).2.2.2 ⟨3, by norm_num⟩ ⟨3, by norm_num⟩ = 1
    ∧ (cookToomFilter exPts 2 3 FractionsInG).2.2.2 ⟨0, by norm_num⟩ ⟨1, by norm_num⟩ = 0 :=
  ⟨(C7_shapes_f_diagonal exPts 2 3 FractionsInG (by norm_num) (by norm_num)).2
      ⟨3, by norm_num⟩ ⟨3, by norm_num⟩ (by norm_num) (by norm_num),
   (C7_shapes_f_diagonal exPts 2 3 FractionsInG (by norm_num) (by norm_num)).1
      ⟨0, by norm_num⟩ ⟨1, by norm_num⟩ (by norm_num)⟩

/-- C10: for every `n ≥ 1` and points that are pairwise distinct among the
first `n`, the row-normalized Lagrange matrix `L(a, n)` is the exact right
inverse of the square Vandermonde matrix `At(a, n, n)`. -/
theorem C10_At_mul_L_eq_one (a : ℕ → ℚ) (n : ℕ) (_hn : 1 ≤ n)
    (hdist : ∀ i j, i < n → j < n → a i = a j → i = j) :
    At a n n * L a n = 1 :=
  VL_one a n hdist

/-- Witness for C10 at points `(0, 1, -1)`, `n = 3`. -/
theorem C10_At_mul_L_eq_one_witness : At exPts 3 3 * L exPts 3 = 1 :=
  C10_At_mul_L_eq_one exPts 3 (by norm_num)
    (by
      intro i j hi hj h
      interval_cases i <;> interval_cases j <;> revert h <;> decide)

/-- C8: `chebyshevPoints n` returns exactly `n` values, the `k`-th being
the exact symbolic cosine `cos((2k+1)π/(2n))`, strictly decreasing from the
point closest to `+1` (`k = 0`) to the point closest to `−1` (`k = n−1`);
and `chebyshevPoints 3 = (√3/2, 0, −√3/2)` in that order. -/
theorem C8_chebyshevPoints_spec (n : ℕ) (hn : 1 ≤ n) :
    (chebyshevPoints n).length = n
    ∧ (∀ k, k < n → (chebyshevPoints n).getD k 0
        = Real.cos ((2 * (k : ℝ) + 1) / (2 * (n : ℝ)) * Real.pi))
    ∧ (∀ k1 k2, k1 < k2 → k2 < n →
        (chebyshevPoints n).getD k2 0 < (chebyshevPoints n).getD k1 0)
    ∧ chebyshevPoints 3 = [Real.sqrt 3 / 2, 0, -(Real.sqrt 3 / 2)] := by
  have hlen : (chebyshevPoints n).length = n := by
    rw [chebyshevPoints, List.length_map, List.length_range]
  have hget : ∀ k, k < n → (chebyshevPoints n).getD k 0
      = Real.cos ((2 * (k : ℝ) + 1) / (2 * (n : ℝ)) * Real.pi) := by
    intro k hk
    have hk' : k < (chebyshevPoints n).length := by rw [hlen]; exact hk
    rw [List.getD_eq_getElem _ _ hk']
    simp [chebyshevPoints]
  refine ⟨hlen, hget, ?_, ?_⟩
  · intro k1 k2 h12 hk2
    rw [hget k1 (lt_trans h12 hk2), hget k2 hk2]
    have hnpos : (0 : ℝ) < 2 * (n : ℝ) := by
      have h1 : (1 : ℝ) ≤ (n : ℝ) := by exact_mod_cast hn
      linarith
    have hmem : ∀ k, k < n →
        (2 * (k : ℝ) + 1) / (2 * (n : ℝ)) * Real.pi ∈ Set.Icc 0 Real.pi := by
      intro k hk
      constructor
      · positivity
      · have hle1 : (2 * (k : ℝ) + 1) / (2 * (n : ℝ)) ≤ 1 := by
          rw [div_le_one hnpos]
          have hcast : (k : ℝ) + 1 ≤ (n : ℝ) := by exact_mod_cast hk
          linarith
        calc (2 * (k : ℝ) + 1) / (2 * (n : ℝ)) * Real.pi ≤ 1 * Real.pi :=
              mul_le_mul_of_nonneg_right hle1 Real.pi_pos.le
        _ = Real.pi := one_mul _
    have hlt : (2 * (k1 : ℝ) + 1) / (2 * (n : ℝ)) * Real.pi
        < (2 * (k2 : ℝ) + 1) / (2 * (n : ℝ)) * Real.pi := by
      have h12' : (k1 : ℝ) < (k2 : ℝ) := by exact_mod_cast h12
      have hdiv : (2 * (k1 : ℝ) + 1) / (2 * (n : ℝ))
          < (2 * (k2 : ℝ) + 1) / (2 * (n : ℝ)) := by
        rw [div_lt_div_iff₀ hnpos hnpos]
        have h2 : 2 * (k1 : ℝ) + 1 < 2 * (k2 : ℝ) + 1 := by linarith
        exact mul_lt_mul_of_pos_right h2 hnpos
      exact mul_lt_mul_of_pos_right hdiv Real.pi_pos
    exact Real.strictAntiOn_cos (hmem k1 (lt_trans h12 hk2)) (hmem k2 hk2) hlt
  · rw [chebyshevPoints, show List.range 3 = [0, 1, 2] from rfl]
    simp only [List.map_cons, List.map_nil]
    have h0 : (2 * ((0 : ℕ) : ℝ) + 1) / (2 * ((3 : ℕ) : ℝ)) * Real.pi = Real.pi / 6 := by
      push_cast
      ring
    have h1 : (2 * ((1 : ℕ) : ℝ) + 1) / (2 * ((3 : ℕ) : ℝ)) * Real.pi = Real.pi / 2 := by
      push_cast
      ring
    have h2 : (2 * ((2 : ℕ) : ℝ) + 1) / (2 * ((3 : ℕ) : ℝ)) * Real.pi
        = Real.pi - Real.pi / 6 := by
      push_cast
      ring
    rw [h0, h1, h2, Real.cos_pi_div_two, Real.cos_pi_sub, Real.cos_pi_div_six]

/-- Witness for C8 at `n = 3`. -/
theorem C8_chebyshevPoints_spec_witness :
    (chebyshevPoints 3).length = 3
    ∧ chebyshevPoints 3 = [Real.sqrt 3 / 2, 0, -(Real.sqrt 3 / 2)] :=
  ⟨(C8_chebyshevPoints_spec 3 (by norm_num)).1,
   (C8_chebyshevPoints_spec 3 (by norm_num)).2.2.2⟩

lemma IsIntPoly_one_list : IsIntPoly [(1 : ℚ)] := by
  intro k
  cases k with
  | zero => exact isInt_one
  | succ k => exact isInt_zero

lemma IsIntPoly_pair {x y : ℚ} (hx : isInt x) (hy : isInt y) : IsIntPoly [x, y] := by
  intro k
  match k with
  | 0 => exact hx
  | 1 => exact hy
  | (k + 2) => exact isInt_zero

lemma IsIntPoly_Lx (a : ℕ → ℚ) (hint : ∀ k, isInt (a k)) (n i : ℕ) :
    IsIntPoly (Lx a n i) := by
  refine IsIntPoly_polyProd ?_
  intro f hf
  simp only [List.mem_map, List.mem_range] at hf
  obtain ⟨k, _, rfl⟩ := hf
  by_cases hk : k = i
  · rw [if_pos hk]
    exact IsIntPoly_one_list
  · rw [if_neg hk]
    exact IsIntPoly_pair (isInt_neg (hint k)) isInt_one

lemma IsIntPoly_Mx (a : ℕ → ℚ) (hint : ∀ k, isInt (a k)) (m : ℕ) :
    IsIntPoly (Mx a m) := by
  refine IsIntPoly_polyProd ?_
  intro f hf
  simp only [List.mem_map, List.mem_range] at hf
  obtain ⟨k, _, rfl⟩ := hf
  exact IsIntPoly_pair (isInt_neg (hint k)) isInt_one

lemma linProd_monic (cs : List ℚ) :
    (polyProd (cs.map fun c => [-c, 1])).length ≤ cs.length + 1
    ∧ pCoeff (polyProd (cs.map fun c => [-c, 1])) cs.length = 1 := by
  induction cs with
  | nil => exact ⟨by simp, rfl⟩
  | cons c cs ih =>
    have hne : polyProd (cs.map fun c => [-c, 1]) ≠ [] := by
      refine polyProd_ne_nil _ ?_
      intro f hf
      simp only [List.mem_map] at hf
      obtain ⟨x, _, rfl⟩ := hf
      simp
    constructor
    · have hlen := pMul_length_le [-c, 1] (polyProd (cs.map fun c => [-c, 1])) (by simp) hne
      have h1 := ih.1
      simp only [List.map_cons, polyProd_cons, List.length_cons]
      simp only [List.length_cons, List.length_singleton, List.length_nil] at hlen
      omega
    · simp only [List.map_cons, polyProd_cons, List.length_cons]
      have harg : cs.length + 1 = 1 + cs.length := by omega
      rw [harg, pCoeff_pMul_top (by simp) ih.1]
      have hc1 : pCoeff [-c, 1] 1 = 1 := rfl
      rw [hc1, ih.2, one_mul]

lemma Mx_length_le (a : ℕ → ℚ) (m : ℕ) : (Mx a m).length ≤ m + 1 := by
  have h := (linProd_monic ((List.range m).map a)).1
  rw [List.map_map] at h
  simpa [Mx, Function.comp] using h

lemma Mx_monic (a : ℕ → ℚ) (m : ℕ) : pCoeff (Mx a m) m = 1 := by
  have h := (linProd_monic ((List.range m).map a)).2
  rw [List.map_map, List.length_map, List.length_range] at h
  have hcomp : ((fun c : ℚ => [-c, 1]) ∘ a) = fun k => [-(a k), 1] := by
    funext k
    rfl
  rw [hcomp] at h
  exact h

lemma pEval_Mx (a : ℕ → ℚ) (m : ℕ) (x : ℚ) :
    pEval (Mx a m) x = ∏ k in Finset.range m, (x - a k) := by
  rw [Mx, pEval_polyProd, List.map_map]
  have hcomp : ((fun f => pEval f x) ∘ fun k => [-(a k), 1]) = fun k => x - a k := by
    funext k
    show -(a k) + x * (1 + x * 0) = x - a k
    ring
  rw [hcomp, list_range_map_prod]

lemma pEval_Mx_point (a : ℕ → ℚ) (m s : ℕ) (hs : s < m) : pEval (Mx a m) (a s) = 0 := by
  rw [pEval_Mx]
  refine Finset.prod_eq_zero (Finset.mem_range.mpr hs) ?_
  simp

/-- The point-at-infinity column of `Bt` holds the coefficients of the full
node polynomial `∏ (x − a k)`. -/
lemma Btf_last_eq_Mx (a : ℕ → ℚ) (m : ℕ)
    (hdist : ∀ i j, i < m → j < m → a i = a j → i = j) (t : ℕ) (ht : t < m) :
    Btf a m t m = pCoeff (Mx a m) t := by
  rw [Btf_last]
  refine interp_unique a m hdist (fun t' => pCoeff (Mx a m) t') (fun s => -(a s ^ m)) ?_ t ht
  intro s hs
  show ∑ t' in Finset.range m, a s ^ t' * pCoeff (Mx a m) t' = -(a s ^ m)
  have h0 : pEval (Mx a m) (a s) = 0 := pEval_Mx_point a m s hs
  rw [pEval_eq_sum_of_le (Mx a m) (a s) (Mx_length_le a m), Finset.sum_range_succ,
    Mx_monic, one_mul] at h0
  have hcomm : ∑ t' in Finset.range m, a s ^ t' * pCoeff (Mx a m) t'
      = ∑ t' in Finset.range m, pCoeff (Mx a m) t' * a s ^ t' :=
    Finset.sum_congr rfl fun _ _ => mul_comm _ _
  rw [hcomm]
  linarith [h0]

/-- C9: under the fractions-in-scale policy (`FractionsInF`), with integer
interpolation points, all entries of `AT`, `G`, `BT` are integers, and the
branch computes `AT = A(a, α, n)ᵗ`, `G = A(a, α, r)`,
`BT = f × B(a, α)ᵗ` (with `f` the separate scale factor for the caller). -/
theorem C9_FractionsInF_integer_matrices (a : ℕ → ℚ) (n r : ℕ) (hn : 1 ≤ n) (hr : 1 ≤ r)
    (hint : ∀ k, isInt (a k))
    (hdist : ∀ i j, i < n + r - 2 → j < n + r - 2 → a i = a j → i = j) :
    ((cookToomFilter a n r FractionsInF).1 = (A a (n + r - 1) n).transpose
      ∧ (cookToomFilter a n r FractionsInF).2.1 = A a (n + r - 1) r
      ∧ (cookToomFilter a n r FractionsInF).2.2.1
          = fScale a (n + r - 1) * (B a (n + r - 1)).transpose)
    ∧ (∀ (i : Fin n) (j : Fin (n + r - 1)),
        isInt ((cookToomFilter a n r FractionsInF).1 i j))
    ∧ (∀ (i : Fin (n + r - 1)) (j : Fin r),
        isInt ((cookToomFilter a n r FractionsInF).2.1 i j))
    ∧ (∀ (i j : Fin (n + r - 1)),
        isInt ((cookToomFilter a n r FractionsInF).2.2.1 i j)) := by
  have hal : 0 < n + r - 1 := by omega
  have hdist' : ∀ x y, x < n + r - 1 - 1 → y < n + r - 1 - 1 → a x = a y → x = y := by
    intro x y hx hy
    exact hdist x y (by omega) (by omega)
  have hAf : ∀ M N i j : ℕ, isInt (Af a M N i j) := by
    intro M N i j
    rw [Af]
    by_cases h1 : i < M - 1
    · rw [if_pos h1]
      exact isInt_pow (hint i) j
    · rw [if_neg h1]
      by_cases h2 : j = N - 1
      · rw [if_pos h2]
        exact isInt_one
      · rw [if_neg h2]
        exact isInt_zero
  have hkey : ∀ s' t' : ℕ, s' < n + r - 1 → t' < n + r - 1 →
      isInt (fdiagEntry a (n + r - 1) s' * Bf a (n + r - 1) t' s') := by
    intro s' t' hs' ht'
    by_cases hsm : s' < n + r - 1 - 1
    · have hfd : fdiagEntry a (n + r - 1) s' = Ff a (n + r - 1 - 1) s' := by
        rw [fdiagEntry, if_pos hsm]
      by_cases htm : t' < n + r - 1 - 1
      · have hBf : Bf a (n + r - 1) t' s' = Lf a (n + r - 1 - 1) t' s' := by
          rw [Bf, if_pos htm, Btf_eq_Lf a (n + r - 1 - 1) t' s' hsm]
        rw [hfd, hBf, Lf]
        have hFne : Ff a (n + r - 1 - 1) s' ≠ 0 :=
          Ff_ne_zero a (n + r - 1 - 1) hdist' s' hsm
        rw [mul_comm, div_mul_cancel₀ _ hFne]
        exact IsIntPoly_Lx a hint (n + r - 1 - 1) s' t'
      · have hBf : Bf a (n + r - 1) t' s' = 0 := by
          rw [Bf, if_neg htm, if_neg (by omega)]
        rw [hBf, mul_zero]
        exact isInt_zero
    · have hfd : fdiagEntry a (n + r - 1) s' = 1 := by
        rw [fdiagEntry, if_neg hsm]
      rw [hfd, one_mul]
      by_cases htm : t' < n + r - 1 - 1
      · have hs'' : s' = n + r - 1 - 1 := by omega
        have hBf : Bf a (n + r - 1) t' s' = pCoeff (Mx a (n + r - 1 - 1)) t' := by
          rw [Bf, if_pos htm, hs'', Btf_last_eq_Mx a (n + r - 1 - 1) hdist' t' htm]
        rw [hBf]
        exact IsIntPoly_Mx a hint (n + r - 1 - 1) t'
      · have hBf : Bf a (n + r - 1) t' s' = 1 := by
          rw [Bf, if_neg htm, if_pos (by omega)]
        rw [hBf]
        exact isInt_one
  refine ⟨⟨cookToomFilter_F_AT a n r, cookToomFilter_F_G a n r, cookToomFilter_F_BT a n r⟩,
    ?_, ?_, ?_⟩
  · intro i j
    rw [cookToomFilter_F_AT, Matrix.transpose_apply, A_apply]
    exact hAf _ _ _ _
  · intro i j
    rw [cookToomFilter_F_G, A_apply]
    exact hAf _ _ _ _
  · intro s t
    rw [cookToomFilter_F_BT, BT_scaled_apply a (n + r - 1) hal s t]
    have hfe : fEntry a (n + r - 1) ↑s = fdiagEntry a (n + r - 1) ↑s
        ∨ fEntry a (n + r - 1) ↑s = -(fdiagEntry a (n + r - 1) ↑s) := by
      have hfee : fEntry a (n + r - 1) ↑s
          = if fdiagEntry a (n + r - 1) 0 < 0 ∧ (s : ℕ) = 0
            then -(fdiagEntry a (n + r - 1) ↑s) else fdiagEntry a (n + r - 1) ↑s := rfl
      by_cases h : fdiagEntry a (n + r - 1) 0 < 0 ∧ (s : ℕ) = 0
      · right
        rw [hfee, if_pos h]
      · left
        rw [hfee, if_neg h]
    rcases hfe with hfe | hfe
    · rw [hfe]
      exact hkey ↑s ↑t s.isLt t.isLt
    · rw [hfe]
      obtain ⟨w, hw⟩ := hkey ↑s ↑t s.isLt t.isLt
      refine ⟨-w, ?_⟩
      rw [neg_mul, hw]
      push_cast
      ring

/-- Witness for C9 at points `(0, 1, -1)`, `n = 2`, `r = 3`: the `(1, 2)`
entry of `BT` is an integer. -/
theorem C9_FractionsInF_integer_matrices_witness :
    ∃ w : ℤ, (cookToomFilter exPts 2 3 FractionsInF).2.2.1 ⟨1, by norm_num⟩ ⟨2, by norm_num⟩
      = (w : ℚ) :=
  (C9_FractionsInF_integer_matrices exPts 2 3 (by norm_num) (by norm_num)
    (by
      intro k
      match k with
      | 0 => exact ⟨0, rfl⟩
      | 1 => exact ⟨1, rfl⟩
      | 2 => exact ⟨-1, rfl⟩
      | (k + 3) => exact ⟨0, rfl⟩)
    (by
      intro i j hi hj h
      interval_cases i <;> interval_cases j <;> revert h <;> decide)).2.2.2
    ⟨1, by norm_num⟩ ⟨2, by norm_num⟩

/-- C5 fails as stated: with the repeated points `(0, 0, 1)` and policy
`FractionsInB`, no error is raised and a result tuple is returned (sympy's
division by zero yields `zoo` instead of raising). -/
theorem C5_counterexample :
    cookToomFilterE [0, 0, 1] 2 3 FractionsInB
      = Except.ok (cookToomFilter (fun i => ([0, 0, 1] : List ℚ).getD i 0) 2 3 FractionsInB) :=
  rfl

/-- C5 amended: too few points raise an out-of-range error under every
policy; non-distinct points raise a singular-matrix error under
`FractionsInG` and `FractionsInA` only; under `FractionsInB` and
`FractionsInF` a result tuple is returned. -/
theorem C5_error_model (aL : List ℚ) (n r p : ℕ) (hn : 1 ≤ n) (hr : 1 ≤ r) :
    (aL.length < n + r - 2 →
      cookToomFilterE aL n r p = Except.error CTError.indexOutOfRange)
    ∧ (n + r - 2 ≤ aL.length → (p = FractionsInG ∨ p = FractionsInA) →
        ¬(∀ i j, i < n + r - 2 → j < n + r - 2 → aL.getD i 0 = aL.getD j 0 → i = j) →
        cookToomFilterE aL n r p = Except.error CTError.nonInvertibleMatrix)
    ∧ (n + r - 2 ≤ aL.length → (p = FractionsInB ∨ p = FractionsInF) →
        ∃ y, cookToomFilterE aL n r p = Except.ok y) := by
  refine ⟨?_, ?_, ?_⟩
  · intro hlen
    rw [cookToomFilterE, if_neg (by omega)]
  · intro hlen hp hnd
    have hal : 0 < n + r - 1 := by omega
    push_neg at hnd
    obtain ⟨i, j, hi, hj, heq, hne⟩ := hnd
    have hFf : Ff (fun k => aL.getD k 0) (n + r - 2) i = 0 := by
      rw [Ff]
      refine Finset.prod_eq_zero (Finset.mem_range.mpr hj) ?_
      rw [if_neg fun hc => hne hc.symm]
      exact sub_eq_zero.mpr heq
    have hfd0 : fdiagEntry (fun k => aL.getD k 0) (n + r - 1) i = 0 := by
      rw [fdiagEntry, if_pos (by omega)]
      have harg : n + r - 1 - 1 = n + r - 2 := by omega
      rw [harg]
      exact hFf
    have hfe0 : fEntry (fun k => aL.getD k 0) (n + r - 1) i = 0 := by
      have hfee : fEntry (fun k => aL.getD k 0) (n + r - 1) i
          = if fdiagEntry (fun k => aL.getD k 0) (n + r - 1) 0 < 0 ∧ i = 0
            then -(fdiagEntry (fun k => aL.getD k 0) (n + r - 1) i)
            else fdiagEntry (fun k => aL.getD k 0) (n + r - 1) i := rfl
      by_cases h : fdiagEntry (fun k => aL.getD k 0) (n + r - 1) 0 < 0 ∧ i = 0
      · rw [hfee, if_pos h, hfd0, neg_zero]
      · rw [hfee, if_neg h, hfd0]
    have hdet : (fScale (fun k => aL.getD k 0) (n + r - 1)).det = 0 := by
      rw [fScale_diagonal _ _ hal, Matrix.det_diagonal]
      refine Finset.prod_eq_zero (Finset.mem_univ (⟨i, by omega⟩ : Fin (n + r - 1))) ?_
      exact hfe0
    rw [cookToomFilterE, if_pos hlen, if_pos ⟨hp, hdet⟩]
  · intro hlen hp
    have hc : ¬((p = FractionsInG ∨ p = FractionsInA)
        ∧ (fScale (fun i => aL.getD i 0) (n + r - 1)).det = 0) := by
      intro hcon
      have hA : p = 0 ∨ p = 1 := hcon.1
      have hB : p = 2 ∨ p = 3 := hp
      omega
    rw [cookToomFilterE, if_pos hlen, if_neg hc]
    exact ⟨_, rfl⟩

/-- Witness for the amended C5: repeated points `(0, 0, 1)` under the
default policy give the singular-matrix error, and a too-short list gives
the out-of-range error. -/
theorem C5_error_model_witness :
    cookToomFilterE [0, 0, 1] 2 3 FractionsInG = Except.error CTError.nonInvertibleMatrix
    ∧ cookToomFilterE [0, 1] 2 3 FractionsInG = Except.error CTError.indexOutOfRange :=
  ⟨(C5_error_model [0, 0, 1] 2 3 FractionsInG (by norm_num) (by norm_num)).2.1
      (by norm_num) (Or.inl rfl)
      (by
        intro hcon
        have h01 := hcon 0 1 (by norm_num) (by norm_num) rfl
        norm_num at h01),
   (C5_error_model [0, 1] 2 3 FractionsInG (by norm_num) (by norm_num)).1 (by norm_num)⟩
